import Mathlib

/-!
# Identity Exposure Index — verification of the core against its spec

Shallow embedding of the repository's core:

* `src/lambda/scoring/scoring_handler.py` — `calculate_iei`, the pure
  exposure scorer.  Python numbers are modelled as integers (`ℤ`) and exact
  rationals (`ℚ`); Python's true division `/`, which raises
  `ZeroDivisionError` on a zero divisor, is modelled by `pydiv` returning
  `Except`; `round(x, 2)` is modelled by `round2`, rounding half to even
  (Python's rounding mode) at two decimal places.
* `src/core/graph_util.py` — `save_iam_data_to_neptune` and
  `save_cloudtrail_data_to_neptune`, the graph upsert engine and the usage
  annotator.  The Neptune property graph is modelled as explicit lists of
  nodes and edges; each gremlin find-or-create `coalesce` step becomes a
  conditional append keyed exactly as the source query keys it.  The
  possibility that `get_graph_traversal` returns `None` (it catches the
  connection error and returns `None`) is modelled by a `connOk : Bool`
  parameter.  A Python exception propagating out of the function is
  modelled as an `Except.error` result carrying the partial graph state
  that was already committed before the exception.  Wall-clock timestamps
  are modelled as naturals passed explicitly (`datetime.now` is read once
  per annotation pass).
-/

namespace IEI

/-! ## Data model: records consumed by the upsert engine -/

/-- The `Action` field of an IAM statement: a JSON string or a JSON list of
strings (`statement.get('Action')` in the source). -/
inductive ActionField where
  | one (a : String)
  | many (l : List String)
deriving DecidableEq, Repr

/-- Normalisation in the source: `if isinstance(actions, str): actions = [actions]`. -/
def ActionField.toList : ActionField → List String
  | .one a => [a]
  | .many l => l

/-- One statement of a policy document; `effect` and `action` are `Option`
because the source reads them with `statement.get(...)`, which yields
`None` for a missing key. -/
structure Stmt where
  effect : Option String
  action : Option ActionField
deriving DecidableEq, Repr

/-- A policy document as seen by `save_iam_data_to_neptune`: either a
mapping, whose `Statement` list is read with `.get('Statement', [])`
(a mapping with no `Statement` key is `valid []`), or a malformed,
non-mapping value on which `.get` raises `AttributeError`. -/
inductive PolicyDoc where
  | valid (stmts : List Stmt)
  | malformed
deriving DecidableEq, Repr

/-- `PolicyRecord = {arn, name, type, document}`. -/
structure PolicyRecord where
  arn : String
  name : String
  ptype : String
  document : PolicyDoc
deriving DecidableEq, Repr

/-- `RoleRecord = {arn, name, account_id, policies}`. -/
structure RoleRecord where
  arn : String
  name : String
  account_id : String
  policies : List PolicyRecord
deriving DecidableEq, Repr

/-! ## Data model: the property graph -/

/-- A `role`-labelled vertex with its properties. -/
structure RoleNode where
  arn : String
  name : String
  account_id : String
deriving DecidableEq, Repr

/-- A `policy`-labelled vertex with its properties.  The source stores
`json.dumps(document)` as the `document` property; serialisation is
modelled by storing the structured document itself. -/
structure PolicyNode where
  arn : String
  name : String
  ptype : String
  document : PolicyDoc
deriving DecidableEq, Repr

/-- A `USED_ACTION` edge with its two properties.  Timestamps are naturals
(the ISO strings written by the source order the same way as the instants
they denote). -/
structure UsedEdge where
  role : String
  action : String
  lookback_start : Nat
  last_seen : Nat
deriving DecidableEq, Repr

/-- The graph state: vertex lists per label and edge lists per label.
`hasPolicy` holds (role arn, policy arn) pairs, `permits` holds
(policy arn, action name) pairs; action vertices carry only their
`name` property. -/
structure Graph where
  roles : List RoleNode
  policies : List PolicyNode
  actions : List String
  hasPolicy : List (String × String)
  permits : List (String × String)
  usedAction : List UsedEdge
deriving DecidableEq, Repr

def Graph.empty : Graph := ⟨[], [], [], [], [], []⟩

/-- `g.V().has('role', 'arn', arn)` finds something. -/
def roleKeyIn (g : Graph) (arn : String) : Prop :=
  ∃ n ∈ g.roles, n.arn = arn

instance (g : Graph) (arn : String) : Decidable (roleKeyIn g arn) := by
  unfold roleKeyIn; infer_instance

/-- `g.V().has('policy', 'arn', arn)` finds something. -/
def policyKeyIn (g : Graph) (arn : String) : Prop :=
  ∃ n ∈ g.policies, n.arn = arn

instance (g : Graph) (arn : String) : Decidable (policyKeyIn g arn) := by
  unfold policyKeyIn; infer_instance

/-! ## The exposure scorer (`calculate_iei`) -/

/-- Python true division: raises `ZeroDivisionError` when the divisor is
zero, otherwise exact rational division (`int / int` in the source; floats
are modelled as exact rationals). -/
def pydiv (a b : ℚ) : Except String ℚ :=
  if b = 0 then .error "ZeroDivisionError" else .ok (a / b)

/-- Round a rational to the nearest integer, halves to even — the rounding
mode of Python's builtin `round`. -/
def roundHalfEven (x : ℚ) : ℤ :=
  if x - (x.floor : ℚ) < 1/2 then x.floor
  else if 1/2 < x - (x.floor : ℚ) then x.floor + 1
  else if x.floor % 2 = 0 then x.floor else x.floor + 1

/-- `round(x, 2)` from the source. -/
def round2 (x : ℚ) : ℚ := (roundHalfEven (x * 100) : ℚ) / 100

/-- The metrics dict consumed by `calculate_iei`; all three values are
Python integers. -/
structure Metrics where
  total_allowed_actions : ℤ
  used_actions : ℤ
  days_since_last_use : ℤ
deriving DecidableEq, Repr

/-- The score record returned by `calculate_iei`. -/
structure Scores where
  iei_score : ℚ
  pb_score : ℚ
  ui_score : ℚ
deriving DecidableEq, Repr

/-- `LOOKBACK_WINDOW = 90` from the source. -/
def LOOKBACK_WINDOW : ℚ := 90

/-- `calculate_iei` from `scoring_handler.py`, line by line: the guarded
privilege-breadth branch, the usage-inactivity formula, the final rounded
sum, and the two rounded sub-scores. -/
def calculate_iei (m : Metrics) : Except String Scores := do
  let taa := m.total_allowed_actions
  let ua := m.used_actions
  let dslu := m.days_since_last_use
  let pb ←
    if taa = 0 then pure (0 : ℚ)
    else if taa = ua then pure (0 : ℚ)
    else do
      let q ← pydiv ((taa : ℚ) - (ua : ℚ)) (taa : ℚ)
      pure (50 * q)
  let ui ← do
    let q ← pydiv (dslu : ℚ) LOOKBACK_WINDOW
    pure (50 * q)
  let iei_score := round2 (pb + ui)
  pure { iei_score := iei_score, pb_score := round2 pb, ui_score := round2 ui }

/-- The privilege-breadth sub-score before rounding, stated from the
spec's words: `PB = 0` if `TAA == 0` or `TAA == UA`, else
`PB = 50 * (TAA - UA) / TAA`. -/
def pbRaw (taa ua : ℤ) : ℚ :=
  if taa = 0 ∨ taa = ua then 0 else 50 * (((taa : ℚ) - (ua : ℚ)) / (taa : ℚ))

/-- The usage-inactivity sub-score before rounding, stated from the
spec's words: `UI = 50 * (DSLU / 90)`. -/
def uiRaw (dslu : ℤ) : ℚ := 50 * ((dslu : ℚ) / 90)

/-! ## The graph upsert engine (`save_iam_data_to_neptune`)

Each gremlin `fold().coalesce(unfold, addV...)` / `coalesce(inE..., addE...)`
step is a conditional append keyed exactly as the query keys it.  Errors
carry the graph state already committed when the exception was raised,
because Neptune writes issued before the exception persist. -/

/-- Find-or-create of the `role` vertex keyed by `arn` (lines 52-55). -/
def upsertRoleNode (g : Graph) (r : RoleRecord) : Graph :=
  if roleKeyIn g r.arn then g
  else { g with roles := g.roles ++ [⟨r.arn, r.name, r.account_id⟩] }

/-- Find-or-create of the `policy` vertex keyed by `arn` (lines 64-67).
When the vertex exists its properties, the stored document included, are
left as they are. -/
def upsertPolicyNode (g : Graph) (p : PolicyRecord) : Graph :=
  if policyKeyIn g p.arn then g
  else { g with policies := g.policies ++ [⟨p.arn, p.name, p.ptype, p.document⟩] }

/-- Find-or-create of the `HAS_POLICY` edge role → policy (lines 71-74). -/
def upsertHasPolicy (g : Graph) (roleArn policyArn : String) : Graph :=
  if (roleArn, policyArn) ∈ g.hasPolicy then g
  else { g with hasPolicy := g.hasPolicy ++ [(roleArn, policyArn)] }

/-- Find-or-create of the `action` vertex keyed by `name` (lines 88-91,
also lines 137-140 in the usage annotator). -/
def upsertActionNode (g : Graph) (a : String) : Graph :=
  if a ∈ g.actions then g
  else { g with actions := g.actions ++ [a] }

/-- Find-or-create of the `PERMITS` edge policy → action (lines 94-97). -/
def upsertPermits (g : Graph) (policyArn a : String) : Graph :=
  if (policyArn, a) ∈ g.permits then g
  else { g with permits := g.permits ++ [(policyArn, a)] }

/-- Body of the action loop (lines 84-97): actions containing `'*'`
anywhere (`'*' in action` is Python substring membership, which for the
single character `'*'` is membership in the character sequence) are
skipped; otherwise the action vertex and the `PERMITS` edge are upserted. -/
def processAction (g : Graph) (policyArn a : String) : Graph :=
  if '*' ∈ a.data then g
  else upsertPermits (upsertActionNode g a) policyArn a

/-- Body of the statement loop (lines 78-97).  A non-`Allow` statement is
ignored.  An `Allow` statement with no `Action` key makes the source
iterate over `None`, raising `TypeError` before any write. -/
def processStatement (g : Graph) (policyArn : String) (st : Stmt) :
    Except (Graph × String) Graph :=
  if st.effect = some "Allow" then
    match st.action with
    | none => .error (g, "TypeError")
    | some af => .ok (af.toList.foldl (fun h a => processAction h policyArn a) g)
  else .ok g

def processStatements (g : Graph) (policyArn : String) :
    List Stmt → Except (Graph × String) Graph
  | [] => .ok g
  | st :: sts =>
    match processStatement g policyArn st with
    | .ok g1 => processStatements g1 policyArn sts
    | .error e => .error e

/-- Body of the policy loop (lines 57-97): the policy vertex and the
`HAS_POLICY` edge are written before the document is parsed, so a
malformed document (`.get` raising `AttributeError`) leaves them
committed. -/
def processPolicy (g : Graph) (roleArn : String) (p : PolicyRecord) :
    Except (Graph × String) Graph :=
  match p.document with
  | .malformed =>
    .error (upsertHasPolicy (upsertPolicyNode g p) roleArn p.arn, "AttributeError")
  | .valid stmts =>
    processStatements (upsertHasPolicy (upsertPolicyNode g p) roleArn p.arn)
      p.arn stmts

def processPolicies (g : Graph) (roleArn : String) :
    List PolicyRecord → Except (Graph × String) Graph
  | [] => .ok g
  | p :: ps =>
    match processPolicy g roleArn p with
    | .ok g1 => processPolicies g1 roleArn ps
    | .error e => .error e

/-- Body of the role loop (lines 44-97). -/
def processRole (g : Graph) (r : RoleRecord) : Except (Graph × String) Graph :=
  processPolicies (upsertRoleNode g r) r.arn r.policies

/-- Observable outcome of one call to `save_iam_data_to_neptune`: the final
graph state, the final value of the `roles_processed` counter (incremented
at the top of the role loop, reported in the success log), and either the
normal return value — always `None`, the function has no `return value`
statement — or the propagated exception. -/
structure UpsertOutcome where
  graph : Graph
  rolesProcessed : Nat
  result : Except String (Option Nat)
deriving Repr

def processRoles (g : Graph) (n : Nat) : List RoleRecord → UpsertOutcome
  | [] => ⟨g, n, .ok none⟩
  | r :: rs =>
    match processRole g r with
    | .ok g1 => processRoles g1 (n + 1) rs
    | .error (g1, e) => ⟨g1, n + 1, .error e⟩

/-- `save_iam_data_to_neptune` (lines 30-109).  When the connection cannot
be established (`get_graph_traversal` catches the error and returns
`None`), the function prints and returns `None` — a normal return. -/
def save_iam_data_to_neptune (connOk : Bool) (g : Graph)
    (iam_data : List RoleRecord) : UpsertOutcome :=
  if connOk then processRoles g 0 iam_data
  else ⟨g, 0, .ok none⟩

/-! ## The usage annotator (`save_cloudtrail_data_to_neptune`) -/

/-- The `coalesce(inE('USED_ACTION')..., addE(...).property('lookback_start', ...))
.property('last_seen', now)` step (lines 144-148): an existing edge keeps
its `lookback_start` and gets a fresh `last_seen`; a new edge gets both. -/
def updateUsedEdge (edges : List UsedEdge) (r a : String) (start now : Nat) :
    List UsedEdge :=
  if edges.any (fun e => e.role == r && e.action == a) then
    edges.map (fun e =>
      if e.role == r && e.action == a then { e with last_seen := now } else e)
  else edges ++ [⟨r, a, start, now⟩]

/-- Body of the action loop (lines 133-148): find-or-create the action
vertex, then write the `USED_ACTION` edge. -/
def processUsedAction (g : Graph) (roleArn a : String) (start now : Nat) : Graph :=
  let g1 := upsertActionNode g a
  { g1 with usedAction := updateUsedEdge g1.usedAction roleArn a start now }

/-- Body of the role loop (lines 123-148): an ARN with no `role` vertex is
skipped with a warning; otherwise every used action is annotated. -/
def processUsageEntry (g : Graph) (w : List String) (roleArn : String)
    (acts : List String) (start now : Nat) : Graph × List String :=
  if roleKeyIn g roleArn then
    (acts.foldl (fun h a => processUsedAction h roleArn a start now) g, w)
  else (g, w ++ [roleArn])

def processUsage (g : Graph) (w : List String) (start now : Nat) :
    List (String × List String) → Graph × List String
  | [] => (g, w)
  | (r, acts) :: rest =>
    let p := processUsageEntry g w r acts start now
    processUsage p.1 p.2 start now rest

/-- Observable outcome of one call to `save_cloudtrail_data_to_neptune`:
final graph, the warnings printed for skipped role ARNs, and the return
value — always a normal `None` return, whether or not the connection could
be established. -/
structure AnnotateOutcome where
  graph : Graph
  warnings : List String
  result : Except String (Option Nat)
deriving Repr

/-- `save_cloudtrail_data_to_neptune` (lines 111-158).  The usage mapping
is a Python dict, modelled as its (insertion-ordered) entry list; `now` is
the wall clock of this pass. -/
def save_cloudtrail_data_to_neptune (connOk : Bool) (g : Graph)
    (usage : List (String × List String)) (start now : Nat) : AnnotateOutcome :=
  if connOk then
    let p := processUsage g [] start now usage
    ⟨p.1, p.2, .ok none⟩
  else ⟨g, [], .ok none⟩

/-- `find?` of the `USED_ACTION` edge between a role and an action. -/
def findUsed (g : Graph) (r a : String) : Option UsedEdge :=
  g.usedAction.find? (fun e => e.role == r && e.action == a)

/-- Node and edge counts per label, the observable of the idempotence
property. -/
def graphCounts (g : Graph) : Nat × Nat × Nat × Nat × Nat × Nat :=
  (g.roles.length, g.policies.length, g.actions.length,
   g.hasPolicy.length, g.permits.length, g.usedAction.length)

/-! ## Scorer lemmas -/

/-- Equality of observable call outcomes is decidable, so concrete runs of
the embedding can be checked by evaluation. -/
instance {ε α : Type} [DecidableEq ε] [DecidableEq α] :
    DecidableEq (Except ε α) := fun a b =>
  match a, b with
  | .ok x, .ok y =>
    if h : x = y then isTrue (by rw [h])
    else isFalse (fun hh => by cases hh; exact h rfl)
  | .error x, .error y =>
    if h : x = y then isTrue (by rw [h])
    else isFalse (fun hh => by cases hh; exact h rfl)
  | .ok _, .error _ => isFalse (fun hh => by cases hh)
  | .error _, .ok _ => isFalse (fun hh => by cases hh)

/-- `Rat.floor` agrees with the floor of the `FloorRing` structure on `ℚ`. -/
theorem ratFloor_eq (x : ℚ) : x.floor = ⌊x⌋ :=
  le_antisymm (Int.le_floor.mpr (by exact_mod_cast Rat.le_floor.mp (le_refl _)))
    (Rat.le_floor.mpr (Int.floor_le x))

/-- Closed form of `calculate_iei`: it always succeeds and returns the
rounded spec formulas. -/
theorem calculate_iei_eq (m : Metrics) :
    calculate_iei m =
      .ok ⟨round2 (pbRaw m.total_allowed_actions m.used_actions +
                   uiRaw m.days_since_last_use),
           round2 (pbRaw m.total_allowed_actions m.used_actions),
           round2 (uiRaw m.days_since_last_use)⟩ := by
  unfold calculate_iei pydiv pbRaw uiRaw LOOKBACK_WINDOW
  by_cases h0 : m.total_allowed_actions = 0
  · simp [h0]
  · by_cases h1 : m.total_allowed_actions = m.used_actions
    · simp [h0, h1]
    · have hq : ((m.total_allowed_actions : ℚ)) ≠ 0 := Int.cast_ne_zero.mpr h0
      have hor : ¬(m.total_allowed_actions = 0 ∨
          m.total_allowed_actions = m.used_actions) := by tauto
      have h90 : ((90 : ℚ)) ≠ 0 := by norm_num
      simp only [if_neg h0, if_neg h1, if_neg hq, if_neg hor, if_neg h90]
      rfl

theorem roundHalfEven_intCast (n : ℤ) : roundHalfEven (n : ℚ) = n := by
  unfold roundHalfEven
  rw [ratFloor_eq, Int.floor_intCast]
  norm_num

theorem round2_eq_of_mul_hundred (n : ℤ) (x : ℚ) (h : x * 100 = (n : ℚ)) :
    round2 x = (n : ℚ) / 100 := by
  unfold round2
  rw [h, roundHalfEven_intCast]

theorem roundHalfEven_ge_floor (x : ℚ) : ⌊x⌋ ≤ roundHalfEven x := by
  unfold roundHalfEven
  rw [ratFloor_eq]
  split
  · exact le_refl _
  · split
    · omega
    · split <;> omega

theorem round2_uiRaw_gt (dslu : ℤ) (h : 90 < dslu) : 50 < round2 (uiRaw dslu) := by
  have hx : (5055 : ℚ) ≤ uiRaw dslu * 100 := by
    unfold uiRaw
    have : (91 : ℚ) ≤ (dslu : ℚ) := by exact_mod_cast h
    nlinarith
  have hfl : (5055 : ℤ) ≤ ⌊uiRaw dslu * 100⌋ := by
    have := Int.le_floor.mpr hx
    simpa using this
  have hr : (5055 : ℤ) ≤ roundHalfEven (uiRaw dslu * 100) :=
    le_trans hfl (roundHalfEven_ge_floor _)
  unfold round2
  have : (5055 : ℚ) ≤ (roundHalfEven (uiRaw dslu * 100) : ℚ) := by exact_mod_cast hr
  linarith

/-- C1: `calculate_iei` returns `pb_score = round2 PB` with `PB = 0` when
`TAA = 0` or `TAA = UA` and `PB = 50 * (TAA - UA) / TAA` otherwise,
`ui_score = round2 (50 * DSLU / 90)`, and `iei_score` as the rounded sum of
the unrounded sub-scores; in particular `TAA = 10, UA = 0` gives
`pb_score = 50`, `DSLU = 90` gives `ui_score = 50`, `DSLU = 0` gives
`ui_score = 0`, and `ui_score` is not capped: `DSLU > 90` yields
`ui_score > 50`. -/
theorem calculate_iei_matches_spec_formula :
    (∀ m s, calculate_iei m = .ok s →
        s.pb_score = round2 (pbRaw m.total_allowed_actions m.used_actions) ∧
        s.ui_score = round2 (uiRaw m.days_since_last_use) ∧
        s.iei_score = round2 (pbRaw m.total_allowed_actions m.used_actions +
                              uiRaw m.days_since_last_use)) ∧
    calculate_iei ⟨10, 0, 0⟩ = .ok ⟨50, 50, 0⟩ ∧
    calculate_iei ⟨0, 0, 90⟩ = .ok ⟨50, 0, 50⟩ ∧
    (∀ m s, calculate_iei m = .ok s → 90 < m.days_since_last_use →
        50 < s.ui_score) := by
  have hpb50 : round2 (pbRaw 10 0) = 50 := by
    have h : pbRaw 10 0 * 100 = ((5000 : ℤ) : ℚ) := by norm_num [pbRaw]
    rw [round2_eq_of_mul_hundred 5000 _ h]; norm_num
  have hui0 : round2 (uiRaw 0) = 0 := by
    have h : uiRaw 0 * 100 = ((0 : ℤ) : ℚ) := by norm_num [uiRaw]
    rw [round2_eq_of_mul_hundred 0 _ h]; norm_num
  have hui50 : round2 (uiRaw 90) = 50 := by
    have h : uiRaw 90 * 100 = ((5000 : ℤ) : ℚ) := by norm_num [uiRaw]
    rw [round2_eq_of_mul_hundred 5000 _ h]; norm_num
  have hpb0 : round2 (pbRaw 0 0) = 0 := by
    have h : pbRaw 0 0 * 100 = ((0 : ℤ) : ℚ) := by norm_num [pbRaw]
    rw [round2_eq_of_mul_hundred 0 _ h]; norm_num
  have hsum50a : round2 (pbRaw 10 0 + uiRaw 0) = 50 := by
    have h : (pbRaw 10 0 + uiRaw 0) * 100 = ((5000 : ℤ) : ℚ) := by
      norm_num [pbRaw, uiRaw]
    rw [round2_eq_of_mul_hundred 5000 _ h]; norm_num
  have hsum50b : round2 (pbRaw 0 0 + uiRaw 90) = 50 := by
    have h : (pbRaw 0 0 + uiRaw 90) * 100 = ((5000 : ℤ) : ℚ) := by
      norm_num [pbRaw, uiRaw]
    rw [round2_eq_of_mul_hundred 5000 _ h]; norm_num
  refine ⟨?_, ?_, ?_, ?_⟩
  · intro m s h
    rw [calculate_iei_eq] at h
    cases h
    exact ⟨rfl, rfl, rfl⟩
  · rw [calculate_iei_eq]
    show Except.ok (Scores.mk (round2 (pbRaw 10 0 + uiRaw 0))
      (round2 (pbRaw 10 0)) (round2 (uiRaw 0))) = _
    rw [hsum50a, hpb50, hui0]
  · rw [calculate_iei_eq]
    show Except.ok (Scores.mk (round2 (pbRaw 0 0 + uiRaw 90))
      (round2 (pbRaw 0 0)) (round2 (uiRaw 90))) = _
    rw [hsum50b, hpb0, hui50]
  · intro m s h hd
    rw [calculate_iei_eq] at h
    cases h
    exact round2_uiRaw_gt _ hd

/-- Witness for C1 at the concrete metrics `TAA = 10, UA = 0, DSLU = 91`,
whose score record is given by the closed form `calculate_iei_eq`. -/
theorem calculate_iei_matches_spec_formula_witness :
    ((⟨round2 (pbRaw 10 0 + uiRaw 91), round2 (pbRaw 10 0),
        round2 (uiRaw 91)⟩ : Scores).pb_score = round2 (pbRaw 10 0) ∧
     (⟨round2 (pbRaw 10 0 + uiRaw 91), round2 (pbRaw 10 0),
        round2 (uiRaw 91)⟩ : Scores).ui_score = round2 (uiRaw 91) ∧
     (⟨round2 (pbRaw 10 0 + uiRaw 91), round2 (pbRaw 10 0),
        round2 (uiRaw 91)⟩ : Scores).iei_score =
       round2 (pbRaw 10 0 + uiRaw 91)) ∧
    50 < (⟨round2 (pbRaw 10 0 + uiRaw 91), round2 (pbRaw 10 0),
        round2 (uiRaw 91)⟩ : Scores).ui_score :=
  ⟨calculate_iei_matches_spec_formula.1 ⟨10, 0, 91⟩ _ (calculate_iei_eq ⟨10, 0, 91⟩),
   calculate_iei_matches_spec_formula.2.2.2 ⟨10, 0, 91⟩ _
     (calculate_iei_eq ⟨10, 0, 91⟩) (by decide)⟩

/-- C10: `calculate_iei` is total — the division by `total_allowed_actions`
sits under the guards `TAA ≠ 0` and `TAA ≠ UA`, so no `ZeroDivisionError`
can occur and every metrics record, including one with
`used_actions > total_allowed_actions`, yields a score record. -/
theorem calculate_iei_total (m : Metrics) : ∃ s, calculate_iei m = .ok s :=
  ⟨_, calculate_iei_eq m⟩

/-! ## Upsert-engine lemmas

The find-or-create steps only ever append; `GSub g g'` says every IAM node
and edge of `g` is still in `g'`.  Each processing level preserves `GSub`,
each completed unit leaves behind a `Done` fact that is monotone under
`GSub`, and a `Done` unit reprocesses as a no-op.  Together these give the
idempotence of `save_iam_data_to_neptune`, error paths included. -/

/-- `g'` contains every IAM node and edge of `g`. -/
structure GSub (g g' : Graph) : Prop where
  roles : ∀ n, n ∈ g.roles → n ∈ g'.roles
  policies : ∀ n, n ∈ g.policies → n ∈ g'.policies
  actions : ∀ a, a ∈ g.actions → a ∈ g'.actions
  hasPolicy : ∀ e, e ∈ g.hasPolicy → e ∈ g'.hasPolicy
  permits : ∀ e, e ∈ g.permits → e ∈ g'.permits

theorem GSub.refl (g : Graph) : GSub g g :=
  ⟨fun _ h => h, fun _ h => h, fun _ h => h, fun _ h => h, fun _ h => h⟩

theorem GSub.trans {g1 g2 g3 : Graph} (h : GSub g1 g2) (h' : GSub g2 g3) :
    GSub g1 g3 :=
  ⟨fun n hn => h'.roles n (h.roles n hn),
   fun n hn => h'.policies n (h.policies n hn),
   fun a ha => h'.actions a (h.actions a ha),
   fun e he => h'.hasPolicy e (h.hasPolicy e he),
   fun e he => h'.permits e (h.permits e he)⟩

theorem roleKeyIn_mono {g g' : Graph} (h : GSub g g') {a : String} :
    roleKeyIn g a → roleKeyIn g' a :=
  fun ⟨n, hn, ha⟩ => ⟨n, h.roles n hn, ha⟩

theorem policyKeyIn_mono {g g' : Graph} (h : GSub g g') {a : String} :
    policyKeyIn g a → policyKeyIn g' a :=
  fun ⟨n, hn, ha⟩ => ⟨n, h.policies n hn, ha⟩

theorem gsub_upsertRoleNode (g : Graph) (r : RoleRecord) :
    GSub g (upsertRoleNode g r) := by
  unfold upsertRoleNode
  split
  · exact GSub.refl g
  · exact ⟨fun n h => List.mem_append_left _ h, fun _ h => h, fun _ h => h,
      fun _ h => h, fun _ h => h⟩

theorem gsub_upsertPolicyNode (g : Graph) (p : PolicyRecord) :
    GSub g (upsertPolicyNode g p) := by
  unfold upsertPolicyNode
  split
  · exact GSub.refl g
  · exact ⟨fun _ h => h, fun n h => List.mem_append_left _ h, fun _ h => h,
      fun _ h => h, fun _ h => h⟩

theorem gsub_upsertHasPolicy (g : Graph) (ra pa : String) :
    GSub g (upsertHasPolicy g ra pa) := by
  unfold upsertHasPolicy
  split
  · exact GSub.refl g
  · exact ⟨fun _ h => h, fun _ h => h, fun _ h => h,
      fun e h => List.mem_append_left _ h, fun _ h => h⟩

theorem gsub_upsertActionNode (g : Graph) (a : String) :
    GSub g (upsertActionNode g a) := by
  unfold upsertActionNode
  split
  · exact GSub.refl g
  · exact ⟨fun _ h => h, fun _ h => h, fun x h => List.mem_append_left _ h,
      fun _ h => h, fun _ h => h⟩

theorem gsub_upsertPermits (g : Graph) (pa a : String) :
    GSub g (upsertPermits g pa a) := by
  unfold upsertPermits
  split
  · exact GSub.refl g
  · exact ⟨fun _ h => h, fun _ h => h, fun _ h => h, fun _ h => h,
      fun e h => List.mem_append_left _ h⟩

theorem gsub_processAction (g : Graph) (pa a : String) :
    GSub g (processAction g pa a) := by
  unfold processAction
  split
  · exact GSub.refl g
  · exact (gsub_upsertActionNode g a).trans (gsub_upsertPermits _ pa a)

/-- No-op lemmas: a find-or-create whose key is already present returns the
graph unchanged. -/
theorem upsertRoleNode_noop {g : Graph} {r : RoleRecord}
    (h : roleKeyIn g r.arn) : upsertRoleNode g r = g := by
  unfold upsertRoleNode; rw [if_pos h]

theorem upsertPolicyNode_noop {g : Graph} {p : PolicyRecord}
    (h : policyKeyIn g p.arn) : upsertPolicyNode g p = g := by
  unfold upsertPolicyNode; rw [if_pos h]

theorem upsertHasPolicy_noop {g : Graph} {ra pa : String}
    (h : (ra, pa) ∈ g.hasPolicy) : upsertHasPolicy g ra pa = g := by
  unfold upsertHasPolicy; rw [if_pos h]

theorem upsertActionNode_noop {g : Graph} {a : String}
    (h : a ∈ g.actions) : upsertActionNode g a = g := by
  unfold upsertActionNode; rw [if_pos h]

theorem upsertPermits_noop {g : Graph} {pa a : String}
    (h : (pa, a) ∈ g.permits) : upsertPermits g pa a = g := by
  unfold upsertPermits; rw [if_pos h]

/-- Ensure lemmas: after a find-or-create, the key is present. -/
theorem roleKeyIn_upsertRoleNode (g : Graph) (r : RoleRecord) :
    roleKeyIn (upsertRoleNode g r) r.arn := by
  unfold upsertRoleNode
  split
  · assumption
  · exact ⟨⟨r.arn, r.name, r.account_id⟩,
      List.mem_append_right _ (List.mem_singleton_self _), rfl⟩

theorem policyKeyIn_upsertPolicyNode (g : Graph) (p : PolicyRecord) :
    policyKeyIn (upsertPolicyNode g p) p.arn := by
  unfold upsertPolicyNode
  split
  · assumption
  · exact ⟨⟨p.arn, p.name, p.ptype, p.document⟩,
      List.mem_append_right _ (List.mem_singleton_self _), rfl⟩

theorem mem_upsertHasPolicy (g : Graph) (ra pa : String) :
    (ra, pa) ∈ (upsertHasPolicy g ra pa).hasPolicy := by
  unfold upsertHasPolicy
  split
  · assumption
  · exact List.mem_append_right _ (List.mem_singleton_self _)

theorem mem_upsertActionNode (g : Graph) (a : String) :
    a ∈ (upsertActionNode g a).actions := by
  unfold upsertActionNode
  split
  · assumption
  · exact List.mem_append_right _ (List.mem_singleton_self _)

theorem mem_upsertPermits (g : Graph) (pa a : String) :
    (pa, a) ∈ (upsertPermits g pa a).permits := by
  unfold upsertPermits
  split
  · assumption
  · exact List.mem_append_right _ (List.mem_singleton_self _)

theorem upsertPermits_actions (g : Graph) (pa a : String) :
    (upsertPermits g pa a).actions = g.actions := by
  unfold upsertPermits; split <;> rfl

theorem upsertHasPolicy_policies (g : Graph) (ra pa : String) :
    (upsertHasPolicy g ra pa).policies = g.policies := by
  unfold upsertHasPolicy; split <;> rfl

/-- The graph component of a fallible step's outcome (the state already
committed when an exception was raised, or the final state). -/
def resGraph : Except (Graph × String) Graph → Graph
  | .ok g => g
  | .error (g, _) => g

/-- What processing one action guarantees. -/
def ActionDone (G : Graph) (pa a : String) : Prop :=
  '*' ∈ a.data ∨ (a ∈ G.actions ∧ (pa, a) ∈ G.permits)

/-- What processing one statement guarantees. -/
def StmtDone (G : Graph) (pa : String) (st : Stmt) : Prop :=
  st.effect = some "Allow" →
    ∃ af, st.action = some af ∧ ∀ a ∈ af.toList, ActionDone G pa a

/-- What processing one policy record guarantees. -/
def PolicyDone (G : Graph) (ra : String) (pr : PolicyRecord) : Prop :=
  policyKeyIn G pr.arn ∧ (ra, pr.arn) ∈ G.hasPolicy ∧
    ∃ stmts, pr.document = .valid stmts ∧ ∀ st ∈ stmts, StmtDone G pr.arn st

/-- What processing one role record guarantees. -/
def RoleDone (G : Graph) (r : RoleRecord) : Prop :=
  roleKeyIn G r.arn ∧ ∀ p ∈ r.policies, PolicyDone G r.arn p

theorem ActionDone_mono {g g' : Graph} (h : GSub g g') {pa a : String} :
    ActionDone g pa a → ActionDone g' pa a := by
  rintro (hw | ⟨ha, hp⟩)
  · exact Or.inl hw
  · exact Or.inr ⟨h.actions a ha, h.permits _ hp⟩

theorem StmtDone_mono {g g' : Graph} (h : GSub g g') {pa : String} {st : Stmt} :
    StmtDone g pa st → StmtDone g' pa st := by
  intro hd he
  obtain ⟨af, haf, hall⟩ := hd he
  exact ⟨af, haf, fun a ha => ActionDone_mono h (hall a ha)⟩

theorem PolicyDone_mono {g g' : Graph} (h : GSub g g') {ra : String}
    {pr : PolicyRecord} : PolicyDone g ra pr → PolicyDone g' ra pr := by
  rintro ⟨hk, he, stmts, hdoc, hall⟩
  exact ⟨policyKeyIn_mono h hk, h.hasPolicy _ he, stmts, hdoc,
    fun st hst => StmtDone_mono h (hall st hst)⟩

theorem RoleDone_mono {g g' : Graph} (h : GSub g g') {r : RoleRecord} :
    RoleDone g r → RoleDone g' r := by
  rintro ⟨hk, hall⟩
  exact ⟨roleKeyIn_mono h hk, fun p hp => PolicyDone_mono h (hall p hp)⟩

/-! ### Action level -/

theorem processAction_done (g : Graph) (pa a : String) :
    ActionDone (processAction g pa a) pa a := by
  unfold processAction
  split
  · exact Or.inl (by assumption)
  · refine Or.inr ⟨?_, mem_upsertPermits _ pa a⟩
    rw [upsertPermits_actions]
    exact mem_upsertActionNode g a

theorem processAction_noop {G : Graph} {pa a : String}
    (h : ActionDone G pa a) : processAction G pa a = G := by
  unfold processAction
  rcases h with hw | ⟨ha, hp⟩
  · rw [if_pos hw]
  · split
    · rfl
    · rw [upsertActionNode_noop ha, upsertPermits_noop hp]

theorem gsub_foldActions (l : List String) (g : Graph) (pa : String) :
    GSub g (l.foldl (fun h a => processAction h pa a) g) := by
  induction l generalizing g with
  | nil => exact GSub.refl g
  | cons b l ih =>
    rw [List.foldl_cons]
    exact (gsub_processAction g pa b).trans (ih _)

theorem foldActions_done (l : List String) (g : Graph) (pa : String) :
    ∀ a ∈ l, ActionDone (l.foldl (fun h x => processAction h pa x) g) pa a := by
  induction l generalizing g with
  | nil => intro a ha; cases ha
  | cons b l ih =>
    intro a ha
    rw [List.foldl_cons]
    rcases List.mem_cons.mp ha with h1 | h2
    · subst h1
      exact ActionDone_mono (gsub_foldActions l _ pa) (processAction_done g pa a)
    · exact ih _ a h2

theorem foldActions_noop {l : List String} {G : Graph} {pa : String}
    (h : ∀ a ∈ l, ActionDone G pa a) :
    l.foldl (fun h x => processAction h pa x) G = G := by
  induction l with
  | nil => rfl
  | cons b l ih =>
    rw [List.foldl_cons, processAction_noop (h b (List.mem_cons_self b l))]
    exact ih (fun a ha => h a (List.mem_cons_of_mem b ha))

/-! ### Statement level -/

theorem gsub_processStatement (g : Graph) (pa : String) (st : Stmt) :
    GSub g (resGraph (processStatement g pa st)) := by
  unfold processStatement
  by_cases he : st.effect = some "Allow"
  · rw [if_pos he]
    cases st.action with
    | none => exact GSub.refl g
    | some af => exact gsub_foldActions af.toList g pa
  · rw [if_neg he]
    exact GSub.refl g

theorem processStatement_done {g g1 : Graph} {pa : String} {st : Stmt}
    (h : processStatement g pa st = .ok g1) : StmtDone g1 pa st := by
  unfold processStatement at h
  intro he
  rw [if_pos he] at h
  cases haf : st.action with
  | none => rw [haf] at h; cases h
  | some af =>
    rw [haf] at h
    cases h
    exact ⟨af, rfl, foldActions_done af.toList g pa⟩

theorem processStatement_noop {G : Graph} {pa : String} {st : Stmt}
    (h : StmtDone G pa st) : processStatement G pa st = .ok G := by
  unfold processStatement
  by_cases he : st.effect = some "Allow"
  · rw [if_pos he]
    obtain ⟨af, haf, hall⟩ := h he
    rw [haf]
    show Except.ok (List.foldl (fun h a => processAction h pa a) G af.toList) = _
    rw [foldActions_noop hall]
  · rw [if_neg he]

/-- A statement-level exception happens before any write and is
deterministic in the statement alone. -/
theorem processStatement_err {g : Graph} {pa : String} {st : Stmt}
    {ge : Graph × String} (h : processStatement g pa st = .error ge) :
    ge = (g, "TypeError") ∧ st.effect = some "Allow" ∧ st.action = none := by
  unfold processStatement at h
  by_cases he : st.effect = some "Allow"
  · rw [if_pos he] at h
    cases haf : st.action with
    | none => rw [haf] at h; cases h; exact ⟨rfl, he, rfl⟩
    | some af => rw [haf] at h; cases h
  · rw [if_neg he] at h; cases h

/-! ### Statement-list level -/

theorem gsub_processStatements (sts : List Stmt) (g : Graph) (pa : String) :
    GSub g (resGraph (processStatements g pa sts)) := by
  induction sts generalizing g with
  | nil => exact GSub.refl g
  | cons st sts ih =>
    unfold processStatements
    cases hst : processStatement g pa st with
    | ok g1 =>
      have h1 := gsub_processStatement g pa st
      rw [hst] at h1
      exact GSub.trans h1 (ih g1)
    | error e =>
      have h1 := gsub_processStatement g pa st
      rw [hst] at h1
      exact h1

theorem processStatements_done {pa : String} {g1 : Graph} :
    ∀ {sts : List Stmt} {g : Graph}, processStatements g pa sts = .ok g1 →
      ∀ st ∈ sts, StmtDone g1 pa st := by
  intro sts
  induction sts with
  | nil => intro g h st hst; cases hst
  | cons st sts ih =>
    intro g h st' hst'
    unfold processStatements at h
    cases hstep : processStatement g pa st with
    | ok ga =>
      rw [hstep] at h
      have h' : processStatements ga pa sts = .ok g1 := h
      rcases List.mem_cons.mp hst' with h1 | h2
      · subst h1
        have hga1 : GSub ga g1 := by
          have hs := gsub_processStatements sts ga pa
          rw [h'] at hs
          exact hs
        exact StmtDone_mono hga1 (processStatement_done hstep)
      · exact ih h' st' h2
    | error e =>
      rw [hstep] at h
      cases h

theorem processStatements_noop {G : Graph} {pa : String} {sts : List Stmt}
    (h : ∀ st ∈ sts, StmtDone G pa st) : processStatements G pa sts = .ok G := by
  induction sts with
  | nil => rfl
  | cons st sts ih =>
    unfold processStatements
    rw [processStatement_noop (h st (List.mem_cons_self st sts))]
    exact ih (fun st' h' => h st' (List.mem_cons_of_mem st h'))

theorem processStatements_err_rerun {pa : String} {g1 : Graph} {e : String} :
    ∀ {sts : List Stmt} {g : Graph},
      processStatements g pa sts = .error (g1, e) →
      processStatements g1 pa sts = .error (g1, e) := by
  intro sts
  induction sts with
  | nil => intro g h; cases h
  | cons st sts ih =>
    intro g h
    unfold processStatements at h ⊢
    cases hstep : processStatement g pa st with
    | ok ga =>
      rw [hstep] at h
      have h' : processStatements ga pa sts = .error (g1, e) := h
      have hga1 : GSub ga g1 := by
        have hs := gsub_processStatements sts ga pa
        rw [h'] at hs
        exact hs
      have hd : StmtDone g1 pa st := StmtDone_mono hga1 (processStatement_done hstep)
      rw [processStatement_noop hd]
      exact ih h'
    | error ge =>
      rw [hstep] at h
      injection h with h2
      subst h2
      obtain ⟨hge, -, -⟩ := processStatement_err hstep
      have hg : g1 = g := congrArg Prod.fst hge
      subst hg
      rw [hstep]

/-! ### Policy level -/

theorem policyKeyIn_after_upserts (g : Graph) (ra : String) (pr : PolicyRecord) :
    policyKeyIn (upsertHasPolicy (upsertPolicyNode g pr) ra pr.arn) pr.arn := by
  unfold policyKeyIn
  rw [upsertHasPolicy_policies]
  exact policyKeyIn_upsertPolicyNode g pr

theorem gsub_processPolicy (g : Graph) (ra : String) (pr : PolicyRecord) :
    GSub g (resGraph (processPolicy g ra pr)) := by
  unfold processPolicy
  have hbase : GSub g (upsertHasPolicy (upsertPolicyNode g pr) ra pr.arn) :=
    (gsub_upsertPolicyNode g pr).trans (gsub_upsertHasPolicy _ ra pr.arn)
  cases hdoc : pr.document with
  | malformed => exact hbase
  | valid stmts => exact hbase.trans (gsub_processStatements stmts _ pr.arn)

theorem processPolicy_done {g g1 : Graph} {ra : String} {pr : PolicyRecord}
    (h : processPolicy g ra pr = .ok g1) : PolicyDone g1 ra pr := by
  unfold processPolicy at h
  cases hdoc : pr.document with
  | malformed => rw [hdoc] at h; cases h
  | valid stmts =>
    rw [hdoc] at h
    have h' : processStatements (upsertHasPolicy (upsertPolicyNode g pr) ra pr.arn)
        pr.arn stmts = .ok g1 := h
    have hsub : GSub (upsertHasPolicy (upsertPolicyNode g pr) ra pr.arn) g1 := by
      have hs := gsub_processStatements stmts
        (upsertHasPolicy (upsertPolicyNode g pr) ra pr.arn) pr.arn
      rw [h'] at hs
      exact hs
    exact ⟨policyKeyIn_mono hsub (policyKeyIn_after_upserts g ra pr),
      hsub.hasPolicy _ (mem_upsertHasPolicy (upsertPolicyNode g pr) ra pr.arn),
      stmts, hdoc, processStatements_done h'⟩

theorem processPolicy_noop {G : Graph} {ra : String} {pr : PolicyRecord}
    (h : PolicyDone G ra pr) : processPolicy G ra pr = .ok G := by
  obtain ⟨hk, he, stmts, hdoc, hall⟩ := h
  unfold processPolicy
  rw [hdoc, upsertPolicyNode_noop hk, upsertHasPolicy_noop he]
  exact processStatements_noop hall

theorem processPolicy_err_rerun {g g1 : Graph} {ra : String} {pr : PolicyRecord}
    {e : String} (h : processPolicy g ra pr = .error (g1, e)) :
    processPolicy g1 ra pr = .error (g1, e) := by
  unfold processPolicy at h ⊢
  cases hdoc : pr.document with
  | malformed =>
    rw [hdoc] at h
    injection h with h2
    have hg : g1 = upsertHasPolicy (upsertPolicyNode g pr) ra pr.arn :=
      (congrArg Prod.fst h2).symm
    have he : e = "AttributeError" := (congrArg Prod.snd h2).symm
    subst he
    have hk : policyKeyIn g1 pr.arn := by
      rw [hg]; exact policyKeyIn_after_upserts g ra pr
    have hedge : (ra, pr.arn) ∈ g1.hasPolicy := by
      rw [hg]; exact mem_upsertHasPolicy (upsertPolicyNode g pr) ra pr.arn
    rw [upsertPolicyNode_noop hk, upsertHasPolicy_noop hedge]
  | valid stmts =>
    rw [hdoc] at h
    have h' : processStatements (upsertHasPolicy (upsertPolicyNode g pr) ra pr.arn)
        pr.arn stmts = .error (g1, e) := h
    have hsub : GSub (upsertHasPolicy (upsertPolicyNode g pr) ra pr.arn) g1 := by
      have hs := gsub_processStatements stmts
        (upsertHasPolicy (upsertPolicyNode g pr) ra pr.arn) pr.arn
      rw [h'] at hs
      exact hs
    have hk : policyKeyIn g1 pr.arn :=
      policyKeyIn_mono hsub (policyKeyIn_after_upserts g ra pr)
    have hedge : (ra, pr.arn) ∈ g1.hasPolicy :=
      hsub.hasPolicy _ (mem_upsertHasPolicy (upsertPolicyNode g pr) ra pr.arn)
    rw [upsertPolicyNode_noop hk, upsertHasPolicy_noop hedge]
    exact processStatements_err_rerun h'

/-! ### Policy-list level -/

theorem gsub_processPolicies (ps : List PolicyRecord) (g : Graph) (ra : String) :
    GSub g (resGraph (processPolicies g ra ps)) := by
  induction ps generalizing g with
  | nil => exact GSub.refl g
  | cons p ps ih =>
    unfold processPolicies
    cases hst : processPolicy g ra p with
    | ok g1 =>
      have h1 := gsub_processPolicy g ra p
      rw [hst] at h1
      exact GSub.trans h1 (ih g1)
    | error e =>
      have h1 := gsub_processPolicy g ra p
      rw [hst] at h1
      exact h1

theorem processPolicies_done {ra : String} {g1 : Graph} :
    ∀ {ps : List PolicyRecord} {g : Graph}, processPolicies g ra ps = .ok g1 →
      ∀ p ∈ ps, PolicyDone g1 ra p := by
  intro ps
  induction ps with
  | nil => intro g h p hp; cases hp
  | cons p ps ih =>
    intro g h p' hp'
    unfold processPolicies at h
    cases hstep : processPolicy g ra p with
    | ok ga =>
      rw [hstep] at h
      have h' : processPolicies ga ra ps = .ok g1 := h
      rcases List.mem_cons.mp hp' with h1 | h2
      · subst h1
        have hga1 : GSub ga g1 := by
          have hs := gsub_processPolicies ps ga ra
          rw [h'] at hs
          exact hs
        exact PolicyDone_mono hga1 (processPolicy_done hstep)
      · exact ih h' p' h2
    | error e =>
      rw [hstep] at h
      cases h

theorem processPolicies_noop {G : Graph} {ra : String} {ps : List PolicyRecord}
    (h : ∀ p ∈ ps, PolicyDone G ra p) : processPolicies G ra ps = .ok G := by
  induction ps with
  | nil => rfl
  | cons p ps ih =>
    unfold processPolicies
    rw [processPolicy_noop (h p (List.mem_cons_self p ps))]
    exact ih (fun p' h' => h p' (List.mem_cons_of_mem p h'))

theorem processPolicies_err_rerun {ra : String} {g1 : Graph} {e : String} :
    ∀ {ps : List PolicyRecord} {g : Graph},
      processPolicies g ra ps = .error (g1, e) →
      processPolicies g1 ra ps = .error (g1, e) := by
  intro ps
  induction ps with
  | nil => intro g h; cases h
  | cons p ps ih =>
    intro g h
    unfold processPolicies at h ⊢
    cases hstep : processPolicy g ra p with
    | ok ga =>
      rw [hstep] at h
      have h' : processPolicies ga ra ps = .error (g1, e) := h
      have hga1 : GSub ga g1 := by
        have hs := gsub_processPolicies ps ga ra
        rw [h'] at hs
        exact hs
      have hd : PolicyDone g1 ra p := PolicyDone_mono hga1 (processPolicy_done hstep)
      rw [processPolicy_noop hd]
      exact ih h'
    | error ge =>
      rw [hstep] at h
      injection h with h2
      subst h2
      rw [processPolicy_err_rerun hstep]

/-! ### Role level -/

theorem gsub_processRole (g : Graph) (r : RoleRecord) :
    GSub g (resGraph (processRole g r)) :=
  (gsub_upsertRoleNode g r).trans
    (gsub_processPolicies r.policies (upsertRoleNode g r) r.arn)

theorem processRole_done {g g1 : Graph} {r : RoleRecord}
    (h : processRole g r = .ok g1) : RoleDone g1 r := by
  unfold processRole at h
  have hsub : GSub (upsertRoleNode g r) g1 := by
    have hs := gsub_processPolicies r.policies (upsertRoleNode g r) r.arn
    rw [h] at hs
    exact hs
  exact ⟨roleKeyIn_mono hsub (roleKeyIn_upsertRoleNode g r),
    processPolicies_done h⟩

theorem processRole_noop {G : Graph} {r : RoleRecord}
    (h : RoleDone G r) : processRole G r = .ok G := by
  obtain ⟨hk, hall⟩ := h
  unfold processRole
  rw [upsertRoleNode_noop hk]
  exact processPolicies_noop hall

theorem processRole_err_rerun {g g1 : Graph} {r : RoleRecord} {e : String}
    (h : processRole g r = .error (g1, e)) :
    processRole g1 r = .error (g1, e) := by
  unfold processRole at h ⊢
  have hsub : GSub (upsertRoleNode g r) g1 := by
    have hs := gsub_processPolicies r.policies (upsertRoleNode g r) r.arn
    rw [h] at hs
    exact hs
  have hk : roleKeyIn g1 r.arn :=
    roleKeyIn_mono hsub (roleKeyIn_upsertRoleNode g r)
  rw [upsertRoleNode_noop hk]
  exact processPolicies_err_rerun h

/-! ### Batch level -/

theorem gsub_processRoles (L : List RoleRecord) :
    ∀ (g : Graph) (n : Nat), GSub g (processRoles g n L).graph := by
  induction L with
  | nil => intro g n; exact GSub.refl g
  | cons r rs ih =>
    intro g n
    unfold processRoles
    cases hst : processRole g r with
    | ok g1 =>
      have h1 := gsub_processRole g r
      rw [hst] at h1
      exact GSub.trans h1 (ih g1 (n + 1))
    | error ge =>
      obtain ⟨g1, e⟩ := ge
      have h1 := gsub_processRole g r
      rw [hst] at h1
      exact h1

/-- Re-running the whole batch on the state it produced reproduces that
state, the counter and the result — whether the first run succeeded or
aborted with an exception. -/
theorem processRoles_rerun (L : List RoleRecord) :
    ∀ (g : Graph) (n : Nat),
      processRoles (processRoles g n L).graph n L = processRoles g n L := by
  induction L with
  | nil => intro g n; rfl
  | cons r rs ih =>
    intro g n
    cases hstep : processRole g r with
    | ok ga =>
      have hfirst : processRoles g n (r :: rs) = processRoles ga (n + 1) rs := by
        show (match processRole g r with
          | .ok g1 => processRoles g1 (n + 1) rs
          | .error (g1, e) => ⟨g1, n + 1, .error e⟩) = processRoles ga (n + 1) rs
        rw [hstep]
      rw [hfirst]
      have hd : RoleDone (processRoles ga (n + 1) rs).graph r :=
        RoleDone_mono (gsub_processRoles rs ga (n + 1)) (processRole_done hstep)
      have hsecond : processRoles (processRoles ga (n + 1) rs).graph n (r :: rs) =
          processRoles (processRoles ga (n + 1) rs).graph (n + 1) rs := by
        show (match processRole (processRoles ga (n + 1) rs).graph r with
          | .ok g1 => processRoles g1 (n + 1) rs
          | .error (g1, e) => ⟨g1, n + 1, .error e⟩) =
            processRoles (processRoles ga (n + 1) rs).graph (n + 1) rs
        rw [processRole_noop hd]
      rw [hsecond]
      exact ih ga (n + 1)
    | error ge =>
      obtain ⟨g1, e⟩ := ge
      have hfirst : processRoles g n (r :: rs) = ⟨g1, n + 1, .error e⟩ := by
        show (match processRole g r with
          | .ok g2 => processRoles g2 (n + 1) rs
          | .error (g2, e2) => ⟨g2, n + 1, .error e2⟩) =
            (⟨g1, n + 1, .error e⟩ : UpsertOutcome)
        rw [hstep]
      rw [hfirst]
      show (match processRole g1 r with
        | .ok g2 => processRoles g2 (n + 1) rs
        | .error (g2, e2) => ⟨g2, n + 1, .error e2⟩) =
          (⟨g1, n + 1, .error e⟩ : UpsertOutcome)
      rw [processRole_err_rerun hstep]

/-- C2: invoking the graph upsert engine twice with the same input leaves
the graph exactly as one invocation left it — in particular every per-label
node and edge count is unchanged, so the second run creates no duplicate
Role, Policy or Action node and no duplicate HAS_POLICY or PERMITS edge. -/
theorem save_iam_idempotent (g : Graph) (iam_data : List RoleRecord) :
    (save_iam_data_to_neptune true
        (save_iam_data_to_neptune true g iam_data).graph iam_data).graph =
      (save_iam_data_to_neptune true g iam_data).graph ∧
    graphCounts (save_iam_data_to_neptune true
        (save_iam_data_to_neptune true g iam_data).graph iam_data).graph =
      graphCounts (save_iam_data_to_neptune true g iam_data).graph := by
  have h := processRoles_rerun iam_data g 0
  exact ⟨congrArg UpsertOutcome.graph h,
    congrArg graphCounts (congrArg UpsertOutcome.graph h)⟩

/-! ### Invariant preservation through the engine

A predicate preserved by each primitive graph write is preserved by the
whole batch, on success and on abort alike. -/

theorem upsertRoleNode_actions (g : Graph) (r : RoleRecord) :
    (upsertRoleNode g r).actions = g.actions := by
  unfold upsertRoleNode; split <;> rfl

theorem upsertRoleNode_permits (g : Graph) (r : RoleRecord) :
    (upsertRoleNode g r).permits = g.permits := by
  unfold upsertRoleNode; split <;> rfl

theorem upsertPolicyNode_actions (g : Graph) (p : PolicyRecord) :
    (upsertPolicyNode g p).actions = g.actions := by
  unfold upsertPolicyNode; split <;> rfl

theorem upsertPolicyNode_permits (g : Graph) (p : PolicyRecord) :
    (upsertPolicyNode g p).permits = g.permits := by
  unfold upsertPolicyNode; split <;> rfl

theorem upsertHasPolicy_actions (g : Graph) (ra pa : String) :
    (upsertHasPolicy g ra pa).actions = g.actions := by
  unfold upsertHasPolicy; split <;> rfl

theorem upsertHasPolicy_permits (g : Graph) (ra pa : String) :
    (upsertHasPolicy g ra pa).permits = g.permits := by
  unfold upsertHasPolicy; split <;> rfl

theorem upsertActionNode_permits (g : Graph) (a : String) :
    (upsertActionNode g a).permits = g.permits := by
  unfold upsertActionNode; split <;> rfl

theorem pres_fold (P : Graph → Prop)
    (hact : ∀ g pa a, P g → P (processAction g pa a)) (pa : String) :
    ∀ (l : List String) {g : Graph}, P g →
      P (l.foldl (fun h a => processAction h pa a) g) := by
  intro l
  induction l with
  | nil => intro g h; exact h
  | cons b l ih =>
    intro g h
    rw [List.foldl_cons]
    exact ih (hact g pa b h)

theorem pres_statement (P : Graph → Prop)
    (hact : ∀ g pa a, P g → P (processAction g pa a))
    (g : Graph) (pa : String) (st : Stmt) (h : P g) :
    P (resGraph (processStatement g pa st)) := by
  unfold processStatement
  by_cases he : st.effect = some "Allow"
  · rw [if_pos he]
    cases st.action with
    | none => exact h
    | some af => exact pres_fold P hact pa af.toList h
  · rw [if_neg he]
    exact h

theorem pres_statements (P : Graph → Prop)
    (hact : ∀ g pa a, P g → P (processAction g pa a)) (pa : String) :
    ∀ (sts : List Stmt) {g : Graph}, P g →
      P (resGraph (processStatements g pa sts)) := by
  intro sts
  induction sts with
  | nil => intro g h; exact h
  | cons st sts ih =>
    intro g h
    unfold processStatements
    cases hst : processStatement g pa st with
    | ok g1 =>
      have hp := pres_statement P hact g pa st h
      rw [hst] at hp
      exact ih hp
    | error e =>
      have hp := pres_statement P hact g pa st h
      rw [hst] at hp
      exact hp

theorem pres_policy (P : Graph → Prop)
    (hact : ∀ g pa a, P g → P (processAction g pa a))
    (hpol : ∀ g p, P g → P (upsertPolicyNode g p))
    (hhp : ∀ g ra pa, P g → P (upsertHasPolicy g ra pa))
    (g : Graph) (ra : String) (pr : PolicyRecord) (h : P g) :
    P (resGraph (processPolicy g ra pr)) := by
  unfold processPolicy
  cases hdoc : pr.document with
  | malformed => exact hhp _ ra pr.arn (hpol g pr h)
  | valid stmts =>
    exact pres_statements P hact pr.arn stmts (hhp _ ra pr.arn (hpol g pr h))

theorem pres_policies (P : Graph → Prop)
    (hact : ∀ g pa a, P g → P (processAction g pa a))
    (hpol : ∀ g p, P g → P (upsertPolicyNode g p))
    (hhp : ∀ g ra pa, P g → P (upsertHasPolicy g ra pa)) (ra : String) :
    ∀ (ps : List PolicyRecord) {g : Graph}, P g →
      P (resGraph (processPolicies g ra ps)) := by
  intro ps
  induction ps with
  | nil => intro g h; exact h
  | cons p ps ih =>
    intro g h
    unfold processPolicies
    cases hst : processPolicy g ra p with
    | ok g1 =>
      have hp := pres_policy P hact hpol hhp g ra p h
      rw [hst] at hp
      exact ih hp
    | error e =>
      have hp := pres_policy P hact hpol hhp g ra p h
      rw [hst] at hp
      exact hp

theorem pres_role (P : Graph → Prop)
    (hact : ∀ g pa a, P g → P (processAction g pa a))
    (hpol : ∀ g p, P g → P (upsertPolicyNode g p))
    (hhp : ∀ g ra pa, P g → P (upsertHasPolicy g ra pa))
    (hrole : ∀ g r, P g → P (upsertRoleNode g r))
    (g : Graph) (r : RoleRecord) (h : P g) :
    P (resGraph (processRole g r)) := by
  unfold processRole
  exact pres_policies P hact hpol hhp r.arn r.policies (hrole g r h)

theorem pres_roles (P : Graph → Prop)
    (hact : ∀ g pa a, P g → P (processAction g pa a))
    (hpol : ∀ g p, P g → P (upsertPolicyNode g p))
    (hhp : ∀ g ra pa, P g → P (upsertHasPolicy g ra pa))
    (hrole : ∀ g r, P g → P (upsertRoleNode g r)) :
    ∀ (L : List RoleRecord) {g : Graph} (n : Nat), P g →
      P (processRoles g n L).graph := by
  intro L
  induction L with
  | nil => intro g n h; exact h
  | cons r rs ih =>
    intro g n h
    unfold processRoles
    cases hst : processRole g r with
    | ok g1 =>
      have hp := pres_role P hact hpol hhp hrole g r h
      rw [hst] at hp
      exact ih (n + 1) hp
    | error ge =>
      obtain ⟨g1, e⟩ := ge
      have hp := pres_role P hact hpol hhp hrole g r h
      rw [hst] at hp
      exact hp

/-! ### Wildcard exclusion -/

theorem mem_permits_processAction {g : Graph} {pa a : String}
    {e : String × String} (he : e ∈ (processAction g pa a).permits) :
    e ∈ g.permits ∨ (e = (pa, a) ∧ '*' ∉ a.data) := by
  unfold processAction at he
  by_cases hw : '*' ∈ a.data
  · rw [if_pos hw] at he
    exact Or.inl he
  · rw [if_neg hw] at he
    unfold upsertPermits at he
    split at he
    · rw [upsertActionNode_permits] at he
      exact Or.inl he
    · have he' : e ∈ (upsertActionNode g a).permits ++ [(pa, a)] := he
      rw [upsertActionNode_permits] at he'
      rcases List.mem_append.mp he' with h1 | h2
      · exact Or.inl h1
      · exact Or.inr ⟨List.mem_singleton.mp h2, hw⟩

theorem mem_actions_processAction {g : Graph} {pa a x : String}
    (hx : x ∈ (processAction g pa a).actions) :
    x ∈ g.actions ∨ (x = a ∧ '*' ∉ a.data) := by
  unfold processAction at hx
  by_cases hw : '*' ∈ a.data
  · rw [if_pos hw] at hx
    exact Or.inl hx
  · rw [if_neg hw] at hx
    have hx' : x ∈ (upsertActionNode g a).actions := by
      rw [← upsertPermits_actions (upsertActionNode g a) pa a]
      exact hx
    unfold upsertActionNode at hx'
    split at hx'
    · exact Or.inl hx'
    · rcases List.mem_append.mp hx' with h1 | h2
      · exact Or.inl h1
      · exact Or.inr ⟨List.mem_singleton.mp h2, hw⟩

theorem foldActions_wildcard (pa : String) :
    ∀ (l : List String), (∀ a ∈ l, a = "*") → ∀ (g : Graph),
      l.foldl (fun h a => processAction h pa a) g = g := by
  intro l
  induction l with
  | nil => intro h g; rfl
  | cons b l ih =>
    intro h g
    rw [List.foldl_cons]
    have hb : processAction g pa b = g := by
      have hb' : b = "*" := h b (List.mem_cons_self b l)
      subst hb'
      unfold processAction
      rw [if_pos (show '*' ∈ ("*" : String).data by decide)]
    rw [hb]
    exact ih (fun a ha => h a (List.mem_cons_of_mem b ha)) g

/-- Processing statements whose Allow actions are all the full wildcard
writes nothing at all (errors, raised before any write, included). -/
theorem processStatements_wildcard {pa : String} :
    ∀ (stmts : List Stmt) {g : Graph},
      (∀ st ∈ stmts, st.effect = some "Allow" →
        ∀ af, st.action = some af → ∀ a ∈ af.toList, a = "*") →
      resGraph (processStatements g pa stmts) = g := by
  intro stmts
  induction stmts with
  | nil => intro g h; rfl
  | cons st sts ih =>
    intro g h
    unfold processStatements
    have hst : processStatement g pa st = .ok g ∨
        processStatement g pa st = .error (g, "TypeError") := by
      unfold processStatement
      by_cases he : st.effect = some "Allow"
      · rw [if_pos he]
        cases haf : st.action with
        | none => exact Or.inr rfl
        | some af =>
          exact Or.inl (congrArg Except.ok (foldActions_wildcard pa af.toList
            (h st (List.mem_cons_self st sts) he af haf) g))
      · rw [if_neg he]
        exact Or.inl rfl
    rcases hst with hok | herr
    · rw [hok]
      exact ih (fun st' h' => h st' (List.mem_cons_of_mem st h'))
    · rw [herr]
      exact rfl

/-- C3: a policy document whose only Allow action is the full wildcard
`"*"` produces zero Action nodes and zero PERMITS edges for that policy
(the first conjunct: processing such a policy record leaves the action
vertices and PERMITS edges exactly as they were), and a whole upsert run
started on a graph whose PERMITS edges target no wildcard name leaves the
graph that way. -/
theorem wildcard_only_policy_writes_nothing :
    (∀ (g : Graph) (ra : String) (pr : PolicyRecord) (stmts : List Stmt),
      pr.document = .valid stmts →
      (∀ st ∈ stmts, st.effect = some "Allow" →
        ∀ af, st.action = some af → ∀ a ∈ af.toList, a = "*") →
      (resGraph (processPolicy g ra pr)).actions = g.actions ∧
      (resGraph (processPolicy g ra pr)).permits = g.permits) ∧
    (∀ (g : Graph) (L : List RoleRecord),
      (∀ e ∈ g.permits, '*' ∉ e.2.data) →
      ∀ e ∈ (save_iam_data_to_neptune true g L).graph.permits,
        '*' ∉ e.2.data) := by
  constructor
  · intro g ra pr stmts hdoc hall
    unfold processPolicy
    rw [hdoc]
    have hres := @processStatements_wildcard pr.arn stmts
      (upsertHasPolicy (upsertPolicyNode g pr) ra pr.arn) hall
    constructor
    · show (resGraph (processStatements
        (upsertHasPolicy (upsertPolicyNode g pr) ra pr.arn) pr.arn stmts)).actions =
        g.actions
      rw [hres, upsertHasPolicy_actions, upsertPolicyNode_actions]
    · show (resGraph (processStatements
        (upsertHasPolicy (upsertPolicyNode g pr) ra pr.arn) pr.arn stmts)).permits =
        g.permits
      rw [hres, upsertHasPolicy_permits, upsertPolicyNode_permits]
  · intro g L hinv
    have hact : ∀ G pa b, (∀ e ∈ G.permits, '*' ∉ e.2.data) →
        ∀ e ∈ (processAction G pa b).permits, '*' ∉ e.2.data := by
      intro G pa b hG e he
      rcases mem_permits_processAction he with h1 | ⟨heq, hnw⟩
      · exact hG e h1
      · subst heq
        exact hnw
    have hpol : ∀ G p, (∀ e ∈ G.permits, '*' ∉ e.2.data) →
        ∀ e ∈ (upsertPolicyNode G p).permits, '*' ∉ e.2.data := by
      intro G p hG e he
      rw [upsertPolicyNode_permits] at he
      exact hG e he
    have hhp : ∀ G ra pa, (∀ e ∈ G.permits, '*' ∉ e.2.data) →
        ∀ e ∈ (upsertHasPolicy G ra pa).permits, '*' ∉ e.2.data := by
      intro G ra pa hG e he
      rw [upsertHasPolicy_permits] at he
      exact hG e he
    have hrole : ∀ G r, (∀ e ∈ G.permits, '*' ∉ e.2.data) →
        ∀ e ∈ (upsertRoleNode G r).permits, '*' ∉ e.2.data := by
      intro G r hG e he
      rw [upsertRoleNode_permits] at he
      exact hG e he
    exact pres_roles (fun G => ∀ e ∈ G.permits, '*' ∉ e.2.data)
      hact hpol hhp hrole L 0 hinv

/-- Witness for C3: the policy `{Effect: Allow, Action: "*"}` on the empty
graph writes no action vertex and no PERMITS edge. -/
theorem wildcard_only_policy_writes_nothing_witness :
    ((resGraph (processPolicy Graph.empty "arn-r1"
        ⟨"arn-p1", "pol1", "managed",
          .valid [⟨some "Allow", some (.one "*")⟩]⟩)).actions =
      Graph.empty.actions ∧
     (resGraph (processPolicy Graph.empty "arn-r1"
        ⟨"arn-p1", "pol1", "managed",
          .valid [⟨some "Allow", some (.one "*")⟩]⟩)).permits =
      Graph.empty.permits) ∧
    (∀ e ∈ (save_iam_data_to_neptune true Graph.empty
        [⟨"arn-r1", "r1", "acct", [⟨"arn-p1", "pol1", "managed",
          .valid [⟨some "Allow", some (.one "*")⟩]⟩]⟩]).graph.permits,
      '*' ∉ e.2.data) :=
  ⟨wildcard_only_policy_writes_nothing.1 Graph.empty "arn-r1" _ _ rfl
    (by
      intro st hst he af haf a ha
      have h1 : st = ⟨some "Allow", some (.one "*")⟩ := List.mem_singleton.mp hst
      subst h1
      injection haf with h2
      subst h2
      exact List.mem_singleton.mp ha),
   wildcard_only_policy_writes_nothing.2 Graph.empty _
    (fun e he => absurd he (List.not_mem_nil e))⟩

/-- C9: the source skips an Allow action whenever `'*'` occurs anywhere in
the string (`if '*' not in action`), not only the exact string `"*"`: the
loop body leaves the graph unchanged for such an action, and a whole upsert
run creates no Action node and no PERMITS edge for it. -/
theorem wildcard_anywhere_excluded :
    (∀ (g : Graph) (pa a : String), '*' ∈ a.data → processAction g pa a = g) ∧
    (∀ (g : Graph) (L : List RoleRecord) (a : String), '*' ∈ a.data →
      a ∉ g.actions → (∀ pa, (pa, a) ∉ g.permits) →
      a ∉ (save_iam_data_to_neptune true g L).graph.actions ∧
      ∀ pa, (pa, a) ∉ (save_iam_data_to_neptune true g L).graph.permits) := by
  constructor
  · intro g pa a hw
    unfold processAction
    rw [if_pos hw]
  · intro g L a hw h1 h2
    have hact : ∀ G pa b,
        (a ∉ G.actions ∧ ∀ pa2, (pa2, a) ∉ G.permits) →
        (a ∉ (processAction G pa b).actions ∧
         ∀ pa2, (pa2, a) ∉ (processAction G pa b).permits) := by
      intro G pa b hG
      obtain ⟨hga, hgp⟩ := hG
      constructor
      · intro hmem
        rcases mem_actions_processAction hmem with hx | ⟨heq, hnw⟩
        · exact hga hx
        · subst heq
          exact hnw hw
      · intro pa2 hmem
        rcases mem_permits_processAction hmem with hx | ⟨heq, hnw⟩
        · exact hgp pa2 hx
        · have hb : a = b := congrArg Prod.snd heq
          subst hb
          exact hnw hw
    have hpol : ∀ G p,
        (a ∉ G.actions ∧ ∀ pa2, (pa2, a) ∉ G.permits) →
        (a ∉ (upsertPolicyNode G p).actions ∧
         ∀ pa2, (pa2, a) ∉ (upsertPolicyNode G p).permits) := by
      intro G p hG
      obtain ⟨hga, hgp⟩ := hG
      refine ⟨?_, fun pa2 => ?_⟩
      · rw [upsertPolicyNode_actions]; exact hga
      · rw [upsertPolicyNode_permits]; exact hgp pa2
    have hhp : ∀ G ra pa,
        (a ∉ G.actions ∧ ∀ pa2, (pa2, a) ∉ G.permits) →
        (a ∉ (upsertHasPolicy G ra pa).actions ∧
         ∀ pa2, (pa2, a) ∉ (upsertHasPolicy G ra pa).permits) := by
      intro G ra pa hG
      obtain ⟨hga, hgp⟩ := hG
      refine ⟨?_, fun pa2 => ?_⟩
      · rw [upsertHasPolicy_actions]; exact hga
      · rw [upsertHasPolicy_permits]; exact hgp pa2
    have hrole : ∀ G r,
        (a ∉ G.actions ∧ ∀ pa2, (pa2, a) ∉ G.permits) →
        (a ∉ (upsertRoleNode G r).actions ∧
         ∀ pa2, (pa2, a) ∉ (upsertRoleNode G r).permits) := by
      intro G r hG
      obtain ⟨hga, hgp⟩ := hG
      refine ⟨?_, fun pa2 => ?_⟩
      · rw [upsertRoleNode_actions]; exact hga
      · rw [upsertRoleNode_permits]; exact hgp pa2
    exact pres_roles
      (fun G => a ∉ G.actions ∧ ∀ pa2, (pa2, a) ∉ G.permits)
      hact hpol hhp hrole L 0 ⟨h1, h2⟩

/-- Witness for C9 at the partial-wildcard action `"s3:Get*"`. -/
theorem wildcard_anywhere_excluded_witness :
    processAction Graph.empty "arn-p1" "s3:Get*" = Graph.empty ∧
    ("s3:Get*" ∉ (save_iam_data_to_neptune true Graph.empty
        [⟨"arn-r1", "r1", "acct", [⟨"arn-p1", "pol1", "managed",
          .valid [⟨some "Allow",
            some (.many ["s3:Get*", "s3:GetObject"])⟩]⟩]⟩]).graph.actions ∧
     ∀ pa, (pa, "s3:Get*") ∉ (save_iam_data_to_neptune true Graph.empty
        [⟨"arn-r1", "r1", "acct", [⟨"arn-p1", "pol1", "managed",
          .valid [⟨some "Allow",
            some (.many ["s3:Get*", "s3:GetObject"])⟩]⟩]⟩]).graph.permits) :=
  ⟨wildcard_anywhere_excluded.1 Graph.empty "arn-p1" "s3:Get*" (by decide),
   wildcard_anywhere_excluded.2 Graph.empty _ "s3:Get*" (by decide)
     (fun h => absurd h (List.not_mem_nil _))
     (fun pa h => absurd h (List.not_mem_nil _))⟩

/-! ## Usage-annotator lemmas -/

theorem upsertActionNode_usedAction (g : Graph) (a : String) :
    (upsertActionNode g a).usedAction = g.usedAction := by
  unfold upsertActionNode; split <;> rfl

theorem upsertActionNode_roles (g : Graph) (a : String) :
    (upsertActionNode g a).roles = g.roles := by
  unfold upsertActionNode; split <;> rfl

theorem find_map_update (l : List UsedEdge) (r a : String) (t : Nat) :
    (l.map (fun e =>
      if e.role == r && e.action == a then { e with last_seen := t } else e)).find?
        (fun e => e.role == r && e.action == a) =
      (l.find? (fun e => e.role == r && e.action == a)).map
        (fun e => { e with last_seen := t }) := by
  induction l with
  | nil => rfl
  | cons e l ih =>
    rw [List.map_cons]
    by_cases hp : (e.role == r && e.action == a) = true
    · rw [if_pos hp]
      rw [@List.find?_cons_of_pos UsedEdge (fun e => e.role == r && e.action == a)
        ({ e with last_seen := t }) _ hp]
      rw [@List.find?_cons_of_pos UsedEdge (fun e => e.role == r && e.action == a)
        e _ hp]
      rfl
    · rw [if_neg hp]
      rw [@List.find?_cons_of_neg UsedEdge (fun e => e.role == r && e.action == a)
        e _ hp]
      rw [@List.find?_cons_of_neg UsedEdge (fun e => e.role == r && e.action == a)
        e _ hp]
      exact ih

theorem find_updateUsedEdge_self (l : List UsedEdge) (r a : String) (s t : Nat) :
    (updateUsedEdge l r a s t).find? (fun e => e.role == r && e.action == a) =
      some ⟨r, a,
        (match l.find? (fun e => e.role == r && e.action == a) with
         | some e => e.lookback_start
         | none => s), t⟩ := by
  unfold updateUsedEdge
  split
  · rename_i hany
    rw [find_map_update]
    have hsome : (l.find? (fun e => e.role == r && e.action == a)).isSome = true :=
      List.find?_isSome.mpr (List.any_eq_true.mp hany)
    obtain ⟨e1, he1⟩ := Option.isSome_iff_exists.mp hsome
    rw [he1]
    have hp := List.find?_some he1
    have hrole : e1.role = r := eq_of_beq ((Bool.and_eq_true _ _).mp hp).1
    have haction : e1.action = a := eq_of_beq ((Bool.and_eq_true _ _).mp hp).2
    rw [Option.map_some']
    have hmk : ({ e1 with last_seen := t } : UsedEdge) =
        ⟨r, a, e1.lookback_start, t⟩ := by
      rw [show ({ e1 with last_seen := t } : UsedEdge) =
        ⟨e1.role, e1.action, e1.lookback_start, t⟩ from rfl, hrole, haction]
    rw [hmk]
  · rename_i hany
    have hnone : l.find? (fun e => e.role == r && e.action == a) = none := by
      rw [List.find?_eq_none]
      intro x hx hpx
      exact hany (List.any_eq_true.mpr ⟨x, hx, hpx⟩)
    rw [List.find?_append, hnone]
    rw [@List.find?_cons_of_pos UsedEdge (fun e => e.role == r && e.action == a)
      ⟨r, a, s, t⟩ [] (by simp)]
    exact rfl

theorem find_updateUsedEdge_other (l : List UsedEdge) {r a ru au : String}
    (s t : Nat) (hne : r ≠ ru ∨ a ≠ au) :
    (updateUsedEdge l ru au s t).find? (fun e => e.role == r && e.action == a) =
      l.find? (fun e => e.role == r && e.action == a) := by
  unfold updateUsedEdge
  split
  · rename_i hany
    clear hany
    induction l with
    | nil => rfl
    | cons e l ih =>
      rw [List.map_cons]
      by_cases hm : (e.role == ru && e.action == au) = true
      · rw [if_pos hm]
        have hpe : (e.role == r && e.action == a) = false := by
          have h1 : e.role = ru := eq_of_beq ((Bool.and_eq_true _ _).mp hm).1
          have h2 : e.action = au := eq_of_beq ((Bool.and_eq_true _ _).mp hm).2
          rcases hne with h | h
          · have hb : (e.role == r) = false := by
              rw [beq_eq_false_iff_ne, h1]
              exact fun hh => h hh.symm
            rw [hb, Bool.false_and]
          · have hb : (e.action == a) = false := by
              rw [beq_eq_false_iff_ne, h2]
              exact fun hh => h hh.symm
            rw [hb, Bool.and_false]
        rw [@List.find?_cons_of_neg UsedEdge (fun e => e.role == r && e.action == a)
          ({ e with last_seen := t }) _ (by
            show ¬ (e.role == r && e.action == a) = true
            rw [hpe]
            exact Bool.false_ne_true)]
        rw [@List.find?_cons_of_neg UsedEdge (fun e => e.role == r && e.action == a)
          e _ (by
            show ¬ (e.role == r && e.action == a) = true
            rw [hpe]
            exact Bool.false_ne_true)]
        exact ih
      · rw [if_neg hm]
        by_cases hp : (e.role == r && e.action == a) = true
        · rw [@List.find?_cons_of_pos UsedEdge (fun e => e.role == r && e.action == a)
            e _ hp]
          rw [@List.find?_cons_of_pos UsedEdge (fun e => e.role == r && e.action == a)
            e _ hp]
        · rw [@List.find?_cons_of_neg UsedEdge (fun e => e.role == r && e.action == a)
            e _ hp]
          rw [@List.find?_cons_of_neg UsedEdge (fun e => e.role == r && e.action == a)
            e _ hp]
          exact ih
  · have hnew : ((⟨ru, au, s, t⟩ : UsedEdge).role == r &&
        (⟨ru, au, s, t⟩ : UsedEdge).action == a) = false := by
      rcases hne with h | h
      · have h1 : (ru == r) = false := by
          rw [beq_eq_false_iff_ne]
          exact fun hh => h hh.symm
        show (ru == r && au == a) = false
        rw [h1, Bool.false_and]
      · have h1 : (au == a) = false := by
          rw [beq_eq_false_iff_ne]
          exact fun hh => h hh.symm
        show (ru == r && au == a) = false
        rw [h1, Bool.and_false]
    rw [List.find?_append]
    rw [@List.find?_cons_of_neg UsedEdge (fun e => e.role == r && e.action == a)
      ⟨ru, au, s, t⟩ [] (by
        show ¬ ((⟨ru, au, s, t⟩ : UsedEdge).role == r &&
          (⟨ru, au, s, t⟩ : UsedEdge).action == a) = true
        rw [hnew]
        exact Bool.false_ne_true)]
    rw [show (List.find? (fun e => e.role == r && e.action == a)
      ([] : List UsedEdge)) = none from rfl]
    rw [Option.or_none]

theorem filter_role_updateUsedEdge (l : List UsedEdge) {ru : String}
    (au : String) (s t : Nat) {r : String} (hne : ru ≠ r) :
    (updateUsedEdge l ru au s t).filter (fun e => e.role == r) =
      l.filter (fun e => e.role == r) := by
  unfold updateUsedEdge
  split
  · rename_i hany
    clear hany
    induction l with
    | nil => rfl
    | cons e l ih =>
      rw [List.map_cons]
      by_cases hm : (e.role == ru && e.action == au) = true
      · rw [if_pos hm]
        have hpe : (e.role == r) = false := by
          have h1 : e.role = ru := eq_of_beq ((Bool.and_eq_true _ _).mp hm).1
          rw [beq_eq_false_iff_ne, h1]
          exact hne
        rw [@List.filter_cons_of_neg UsedEdge (fun e => e.role == r)
          ({ e with last_seen := t }) _ (by
            show ¬ (e.role == r) = true
            rw [hpe]
            exact Bool.false_ne_true)]
        rw [@List.filter_cons_of_neg UsedEdge (fun e => e.role == r)
          e _ (by
            show ¬ (e.role == r) = true
            rw [hpe]
            exact Bool.false_ne_true)]
        exact ih
      · rw [if_neg hm]
        by_cases hp : (e.role == r) = true
        · rw [@List.filter_cons_of_pos UsedEdge (fun e => e.role == r) e _ hp]
          rw [@List.filter_cons_of_pos UsedEdge (fun e => e.role == r) e _ hp]
          rw [ih]
        · rw [@List.filter_cons_of_neg UsedEdge (fun e => e.role == r) e _ hp]
          rw [@List.filter_cons_of_neg UsedEdge (fun e => e.role == r) e _ hp]
          exact ih
  · rw [List.filter_append]
    rw [@List.filter_cons_of_neg UsedEdge (fun e => e.role == r)
      ⟨ru, au, s, t⟩ [] (by
        show ¬ (ru == r) = true
        rw [beq_eq_false_iff_ne.mpr hne]
        exact Bool.false_ne_true)]
    rw [show (List.filter (fun e : UsedEdge => e.role == r)
      ([] : List UsedEdge)) = [] from rfl]
    rw [List.append_nil]

theorem findUsed_processUsedAction_self (g : Graph) (r a : String) (s t : Nat) :
    findUsed (processUsedAction g r a s t) r a =
      some ⟨r, a, (match findUsed g r a with
        | some e => e.lookback_start
        | none => s), t⟩ := by
  show (updateUsedEdge (upsertActionNode g a).usedAction r a s t).find?
      (fun e => e.role == r && e.action == a) =
    some ⟨r, a,
      (match g.usedAction.find? (fun e => e.role == r && e.action == a) with
       | some e => e.lookback_start
       | none => s), t⟩
  rw [upsertActionNode_usedAction]
  exact find_updateUsedEdge_self g.usedAction r a s t

theorem findUsed_processUsedAction_other (g : Graph) {r a ru au : String}
    (s t : Nat) (hne : r ≠ ru ∨ a ≠ au) :
    findUsed (processUsedAction g ru au s t) r a = findUsed g r a := by
  show (updateUsedEdge (upsertActionNode g au).usedAction ru au s t).find?
      (fun e => e.role == r && e.action == a) =
    g.usedAction.find? (fun e => e.role == r && e.action == a)
  rw [upsertActionNode_usedAction]
  exact find_updateUsedEdge_other g.usedAction s t hne

theorem processUsedAction_roles (g : Graph) (r a : String) (s t : Nat) :
    (processUsedAction g r a s t).roles = g.roles := by
  show (upsertActionNode g a).roles = g.roles
  exact upsertActionNode_roles g a

theorem foldUsed_roles (r2 : String) (s t : Nat) :
    ∀ (acts : List String) (g : Graph),
      (acts.foldl (fun h x => processUsedAction h r2 x s t) g).roles = g.roles := by
  intro acts
  induction acts with
  | nil => intro g; rfl
  | cons x acts ih =>
    intro g
    rw [List.foldl_cons, ih, processUsedAction_roles]

/-- Effect of one role's action loop on the `USED_ACTION` edge of a
given (role, action) pair. -/
theorem foldUsed_findUsed (r2 r a : String) (s t : Nat) :
    ∀ (acts : List String) (g : Graph),
      findUsed (acts.foldl (fun h x => processUsedAction h r2 x s t) g) r a =
        if r2 = r ∧ a ∈ acts then
          some ⟨r, a, (match findUsed g r a with
            | some e => e.lookback_start
            | none => s), t⟩
        else findUsed g r a := by
  intro acts
  induction acts with
  | nil =>
    intro g
    rw [if_neg (fun hc => List.not_mem_nil a hc.2)]
    rfl
  | cons x acts ih =>
    intro g
    rw [List.foldl_cons]
    by_cases hr : r2 = r
    · subst hr
      by_cases hx : a = x
      · subst hx
        have hself := findUsed_processUsedAction_self g r2 a s t
        rw [ih (processUsedAction g r2 a s t)]
        rw [if_pos (⟨rfl, List.mem_cons_self a acts⟩ : r2 = r2 ∧ a ∈ a :: acts)]
        by_cases hmem : a ∈ acts
        · rw [if_pos (⟨rfl, hmem⟩ : r2 = r2 ∧ a ∈ acts), hself]
        · rw [if_neg (fun hc => hmem hc.2), hself]
      · have hother : findUsed (processUsedAction g r2 x s t) r2 a =
            findUsed g r2 a :=
          findUsed_processUsedAction_other g s t (Or.inr hx)
        rw [ih (processUsedAction g r2 x s t), hother]
        by_cases hmem : a ∈ acts
        · rw [if_pos (⟨rfl, hmem⟩ : r2 = r2 ∧ a ∈ acts),
            if_pos (⟨rfl, List.mem_cons_of_mem x hmem⟩ : r2 = r2 ∧ a ∈ x :: acts)]
        · rw [if_neg (fun hc => hmem hc.2),
            if_neg (fun hc => (List.mem_cons.mp hc.2).elim hx hmem)]
    · have hother : findUsed (processUsedAction g r2 x s t) r a =
          findUsed g r a :=
        findUsed_processUsedAction_other g s t (Or.inl (fun hh => hr hh.symm))
      rw [ih (processUsedAction g r2 x s t), hother]
      rw [if_neg (fun hc => hr hc.1), if_neg (fun hc => hr hc.1)]

/-- The usage mapping contains the (role, action) pair. -/
def touchedBy (usage : List (String × List String)) (r a : String) : Prop :=
  ∃ p ∈ usage, p.1 = r ∧ a ∈ p.2

instance (usage : List (String × List String)) (r a : String) :
    Decidable (touchedBy usage r a) := by
  unfold touchedBy; infer_instance

theorem touchedBy_cons_of_tail {usage : List (String × List String)}
    {q : String × List String} {r a : String} (h : touchedBy usage r a) :
    touchedBy (q :: usage) r a := by
  obtain ⟨p, hp, h1, h2⟩ := h
  exact ⟨p, List.mem_cons_of_mem q hp, h1, h2⟩

/-- Effect of one annotation pass on the `USED_ACTION` edge of a given
(role, action) pair: a pair whose role has a vertex and which occurs in the
mapping ends with `last_seen = now` and keeps (or, when absent, acquires
from `start`) its `lookback_start`; every other pair's edge is untouched. -/
theorem processUsage_findUsed (s t : Nat) (r a : String) :
    ∀ (usage : List (String × List String)) (g : Graph) (w : List String),
      findUsed (processUsage g w s t usage).1 r a =
        if roleKeyIn g r ∧ touchedBy usage r a then
          some ⟨r, a, (match findUsed g r a with
            | some e => e.lookback_start
            | none => s), t⟩
        else findUsed g r a := by
  intro usage
  induction usage with
  | nil =>
    intro g w
    have hnt : ¬ (roleKeyIn g r ∧ touchedBy [] r a) := by
      rintro ⟨-, p, hp, -⟩
      exact List.not_mem_nil p hp
    rw [if_neg hnt]
    rfl
  | cons q rest ih =>
    obtain ⟨r1, acts1⟩ := q
    intro g w
    unfold processUsage processUsageEntry
    by_cases hk : roleKeyIn g r1
    · rw [if_pos hk]
      have hkfold : roleKeyIn
          (acts1.foldl (fun h x => processUsedAction h r1 x s t) g) r ↔
          roleKeyIn g r := by
        unfold roleKeyIn
        rw [foldUsed_roles]
      have hf := foldUsed_findUsed r1 r a s t acts1 g
      by_cases hr1 : r1 = r
      · subst hr1
        by_cases hx : a ∈ acts1
        · rw [if_pos (show roleKeyIn g r1 ∧ touchedBy ((r1, acts1) :: rest) r1 a from
            ⟨hk, ⟨(r1, acts1), List.mem_cons_self _ _, rfl, hx⟩⟩)]
          rw [ih (acts1.foldl (fun h x => processUsedAction h r1 x s t) g) w]
          rw [if_pos (⟨rfl, hx⟩ : r1 = r1 ∧ a ∈ acts1)] at hf
          by_cases htouch : touchedBy rest r1 a
          · rw [if_pos ⟨hkfold.mpr hk, htouch⟩, hf]
          · rw [if_neg (fun hc => htouch hc.2), hf]
        · rw [if_neg (fun hc => hx hc.2)] at hf
          by_cases htouch : touchedBy rest r1 a
          · rw [if_pos (show roleKeyIn g r1 ∧ touchedBy ((r1, acts1) :: rest) r1 a from
              ⟨hk, touchedBy_cons_of_tail htouch⟩)]
            rw [ih (acts1.foldl (fun h x => processUsedAction h r1 x s t) g) w]
            rw [if_pos ⟨hkfold.mpr hk, htouch⟩, hf]
          · have hnc : ¬ (roleKeyIn g r1 ∧
                touchedBy ((r1, acts1) :: rest) r1 a) := by
              rintro ⟨-, p, hp, h1, h2⟩
              rcases List.mem_cons.mp hp with h3 | h3
              · subst h3
                exact hx h2
              · exact htouch ⟨p, h3, h1, h2⟩
            rw [if_neg hnc]
            rw [ih (acts1.foldl (fun h x => processUsedAction h r1 x s t) g) w]
            rw [if_neg (fun hc => htouch hc.2), hf]
      · rw [if_neg (fun hc => hr1 hc.1)] at hf
        by_cases hc : roleKeyIn g r ∧ touchedBy rest r a
        · rw [if_pos (show roleKeyIn g r ∧ touchedBy ((r1, acts1) :: rest) r a from
            ⟨hc.1, touchedBy_cons_of_tail hc.2⟩)]
          rw [ih (acts1.foldl (fun h x => processUsedAction h r1 x s t) g) w]
          rw [if_pos ⟨hkfold.mpr hc.1, hc.2⟩, hf]
        · have hnc : ¬ (roleKeyIn g r ∧
              touchedBy ((r1, acts1) :: rest) r a) := by
            rintro ⟨hkr, p, hp, h1, h2⟩
            rcases List.mem_cons.mp hp with h3 | h3
            · subst h3
              exact hr1 h1
            · exact hc ⟨hkr, p, h3, h1, h2⟩
          rw [if_neg hnc]
          rw [ih (acts1.foldl (fun h x => processUsedAction h r1 x s t) g) w]
          rw [if_neg (fun hc2 => hc ⟨hkfold.mp hc2.1, hc2.2⟩), hf]
    · rw [if_neg hk]
      by_cases hc : roleKeyIn g r ∧ touchedBy rest r a
      · rw [if_pos (show roleKeyIn g r ∧ touchedBy ((r1, acts1) :: rest) r a from
          ⟨hc.1, touchedBy_cons_of_tail hc.2⟩)]
        rw [ih g (w ++ [r1]), if_pos hc]
      · have hnc : ¬ (roleKeyIn g r ∧
            touchedBy ((r1, acts1) :: rest) r a) := by
          rintro ⟨hkr, p, hp, h1, h2⟩
          rcases List.mem_cons.mp hp with h3 | h3
          · subst h3
            refine hk ?_
            rw [show r1 = r from h1]
            exact hkr
          · exact hc ⟨hkr, p, h3, h1, h2⟩
        rw [if_neg hnc, ih g (w ++ [r1]), if_neg hc]

theorem processUsage_roles (s t : Nat) :
    ∀ (usage : List (String × List String)) (g : Graph) (w : List String),
      (processUsage g w s t usage).1.roles = g.roles := by
  intro usage
  induction usage with
  | nil => intro g w; rfl
  | cons q rest ih =>
    obtain ⟨r1, acts1⟩ := q
    intro g w
    unfold processUsage processUsageEntry
    split
    · rw [ih, foldUsed_roles]
    · rw [ih]

theorem processUsage_warnings_mono (s t : Nat) :
    ∀ (usage : List (String × List String)) (g : Graph) (w : List String),
      ∀ x ∈ w, x ∈ (processUsage g w s t usage).2 := by
  intro usage
  induction usage with
  | nil => intro g w x hx; exact hx
  | cons q rest ih =>
    obtain ⟨r1, acts1⟩ := q
    intro g w x hx
    unfold processUsage processUsageEntry
    split
    · exact ih _ w x hx
    · exact ih g (w ++ [r1]) x (List.mem_append_left _ hx)

theorem processUsage_warning_of_missing (s t : Nat) (r : String) :
    ∀ (usage : List (String × List String)) (g : Graph) (w : List String),
      ¬ roleKeyIn g r → (∃ acts, (r, acts) ∈ usage) →
      r ∈ (processUsage g w s t usage).2 := by
  intro usage
  induction usage with
  | nil =>
    intro g w hk hex
    obtain ⟨acts, hmem⟩ := hex
    exact absurd hmem (List.not_mem_nil _)
  | cons q rest ih =>
    obtain ⟨r1, acts1⟩ := q
    intro g w hk hex
    obtain ⟨acts, hmem⟩ := hex
    unfold processUsage processUsageEntry
    by_cases hk1 : roleKeyIn g r1
    · rw [if_pos hk1]
      rcases List.mem_cons.mp hmem with h3 | h3
      · exfalso
        have hr : r = r1 := congrArg Prod.fst h3
        refine hk ?_
        rw [hr]
        exact hk1
      · refine ih _ _ ?_ ⟨acts, h3⟩
        unfold roleKeyIn
        rw [foldUsed_roles]
        exact hk
    · rw [if_neg hk1]
      by_cases hrr : r = r1
      · subst hrr
        exact processUsage_warnings_mono s t rest g (w ++ [r]) r
          (List.mem_append_right _ (List.mem_singleton_self r))
      · rcases List.mem_cons.mp hmem with h3 | h3
        · exact absurd (congrArg Prod.fst h3) hrr
        · exact ih g (w ++ [r1]) hk ⟨acts, h3⟩

theorem processUsage_filter_missing (s t : Nat) (r : String) :
    ∀ (usage : List (String × List String)) (g : Graph) (w : List String),
      ¬ roleKeyIn g r →
      (processUsage g w s t usage).1.usedAction.filter (fun e => e.role == r) =
        g.usedAction.filter (fun e => e.role == r) := by
  intro usage
  induction usage with
  | nil => intro g w hk; rfl
  | cons q rest ih =>
    obtain ⟨r1, acts1⟩ := q
    intro g w hk
    unfold processUsage processUsageEntry
    by_cases hk1 : roleKeyIn g r1
    · rw [if_pos hk1]
      have hr1 : r1 ≠ r := fun h => hk (h ▸ hk1)
      have hfold : ∀ (acts : List String) (G : Graph),
          (acts.foldl (fun h x => processUsedAction h r1 x s t) G).usedAction.filter
            (fun e => e.role == r) =
          G.usedAction.filter (fun e => e.role == r) := by
        intro acts
        induction acts with
        | nil => intro G; rfl
        | cons x acts iha =>
          intro G
          rw [List.foldl_cons, iha]
          show (updateUsedEdge (upsertActionNode G x).usedAction r1 x s t).filter
              (fun e => e.role == r) =
            G.usedAction.filter (fun e => e.role == r)
          rw [upsertActionNode_usedAction]
          exact filter_role_updateUsedEdge G.usedAction x s t hr1
      have habs : ¬ roleKeyIn
          (acts1.foldl (fun h x => processUsedAction h r1 x s t) g) r := by
        unfold roleKeyIn
        rw [foldUsed_roles]
        exact hk
      rw [ih _ w habs]
      exact hfold acts1 g
    · rw [if_neg hk1]
      exact ih g (w ++ [r1]) hk

/-- C4: two annotation passes at pass times `t1` then `t2`, both containing
the same (role, action) pair whose role vertex exists and whose edge did
not exist before the first pass, leave the `USED_ACTION` edge with
`lookback_start` equal to the window start of the first pass — the value
set at first creation, untouched by the second pass — and `last_seen`
equal to the time of the second pass; after the first pass `last_seen` was
`t1`, so it moved `t1 → t2`, non-decreasing whenever `t1 ≤ t2`. -/
theorem used_action_edge_timestamps (g0 : Graph)
    (usage1 usage2 : List (String × List String)) (s1 t1 s2 t2 : Nat)
    (r a : String) (hrole : roleKeyIn g0 r) (hnew : findUsed g0 r a = none)
    (h1 : touchedBy usage1 r a) (h2 : touchedBy usage2 r a) :
    findUsed (save_cloudtrail_data_to_neptune true g0 usage1 s1 t1).graph r a =
      some ⟨r, a, s1, t1⟩ ∧
    findUsed (save_cloudtrail_data_to_neptune true
        (save_cloudtrail_data_to_neptune true g0 usage1 s1 t1).graph
        usage2 s2 t2).graph r a = some ⟨r, a, s1, t2⟩ := by
  have e1 : findUsed (processUsage g0 [] s1 t1 usage1).1 r a =
      some ⟨r, a, s1, t1⟩ := by
    have hchar := processUsage_findUsed s1 t1 r a usage1 g0 []
    rw [if_pos ⟨hrole, h1⟩, hnew] at hchar
    exact hchar
  refine ⟨e1, ?_⟩
  have hrole1 : roleKeyIn (processUsage g0 [] s1 t1 usage1).1 r := by
    unfold roleKeyIn
    rw [processUsage_roles]
    exact hrole
  have hchar2 := processUsage_findUsed s2 t2 r a usage2
    (processUsage g0 [] s1 t1 usage1).1 []
  rw [if_pos ⟨hrole1, h2⟩, e1] at hchar2
  exact hchar2

/-- Witness for C4: a single role, annotated twice with window starts 5
then 20 and pass times 10 then 30. -/
theorem used_action_edge_timestamps_witness :
    findUsed (save_cloudtrail_data_to_neptune true
        ⟨[⟨"arn-r1", "r1", "acct"⟩], [], [], [], [], []⟩
        [("arn-r1", ["s3:GetObject"])] 5 10).graph "arn-r1" "s3:GetObject" =
      some ⟨"arn-r1", "s3:GetObject", 5, 10⟩ ∧
    findUsed (save_cloudtrail_data_to_neptune true
        (save_cloudtrail_data_to_neptune true
          ⟨[⟨"arn-r1", "r1", "acct"⟩], [], [], [], [], []⟩
          [("arn-r1", ["s3:GetObject"])] 5 10).graph
        [("arn-r1", ["s3:GetObject"])] 20 30).graph "arn-r1" "s3:GetObject" =
      some ⟨"arn-r1", "s3:GetObject", 5, 30⟩ :=
  used_action_edge_timestamps ⟨[⟨"arn-r1", "r1", "acct"⟩], [], [], [], [], []⟩
    [("arn-r1", ["s3:GetObject"])] [("arn-r1", ["s3:GetObject"])] 5 10 20 30
    "arn-r1" "s3:GetObject" (by decide) rfl (by decide) (by decide)

/-- C5: a usage entry whose role ARN has no Role vertex is skipped — the
`USED_ACTION` edges of that ARN are exactly those already present, the ARN
is recorded as a warning, the call returns normally (`None`, no exception),
and every pair whose role the call can resolve is still annotated with
`last_seen` equal to this pass's time. -/
theorem unknown_role_usage_skipped (g : Graph)
    (usage : List (String × List String)) (s t : Nat) (r : String)
    (hk : ¬ roleKeyIn g r) :
    (save_cloudtrail_data_to_neptune true g usage s t).graph.usedAction.filter
        (fun e => e.role == r) =
      g.usedAction.filter (fun e => e.role == r) ∧
    ((∃ acts, (r, acts) ∈ usage) →
      r ∈ (save_cloudtrail_data_to_neptune true g usage s t).warnings) ∧
    (save_cloudtrail_data_to_neptune true g usage s t).result =
      .ok none ∧
    (∀ r2 a2, roleKeyIn g r2 → touchedBy usage r2 a2 →
      ∃ e, findUsed (save_cloudtrail_data_to_neptune true g usage s t).graph
        r2 a2 = some e ∧ e.last_seen = t) := by
  refine ⟨?_, ?_, rfl, ?_⟩
  · exact processUsage_filter_missing s t r usage g [] hk
  · intro hex
    exact processUsage_warning_of_missing s t r usage g [] hk hex
  · intro r2 a2 hk2 ht2
    have hchar := processUsage_findUsed s t r2 a2 usage g []
    rw [if_pos ⟨hk2, ht2⟩] at hchar
    exact ⟨_, hchar, rfl⟩

/-- Witness for C5: `arn-ghost` has no Role vertex; `arn-r2` does and its
usage is still annotated. -/
theorem unknown_role_usage_skipped_witness :
    (save_cloudtrail_data_to_neptune true
        ⟨[⟨"arn-r2", "r2", "acct"⟩], [], [], [], [], []⟩
        [("arn-ghost", ["s3:Get"]), ("arn-r2", ["s3:Put"])]
        3 7).graph.usedAction.filter (fun e => e.role == "arn-ghost") =
      (⟨[⟨"arn-r2", "r2", "acct"⟩], [], [], [], [], []⟩ :
        Graph).usedAction.filter (fun e => e.role == "arn-ghost") ∧
    ((∃ acts, ("arn-ghost", acts) ∈
        [("arn-ghost", ["s3:Get"]), ("arn-r2", ["s3:Put"])]) →
      "arn-ghost" ∈ (save_cloudtrail_data_to_neptune true
        ⟨[⟨"arn-r2", "r2", "acct"⟩], [], [], [], [], []⟩
        [("arn-ghost", ["s3:Get"]), ("arn-r2", ["s3:Put"])] 3 7).warnings) ∧
    (save_cloudtrail_data_to_neptune true
        ⟨[⟨"arn-r2", "r2", "acct"⟩], [], [], [], [], []⟩
        [("arn-ghost", ["s3:Get"]), ("arn-r2", ["s3:Put"])] 3 7).result =
      .ok none ∧
    (∀ r2 a2, roleKeyIn
        (⟨[⟨"arn-r2", "r2", "acct"⟩], [], [], [], [], []⟩ : Graph) r2 →
      touchedBy [("arn-ghost", ["s3:Get"]), ("arn-r2", ["s3:Put"])] r2 a2 →
      ∃ e, findUsed (save_cloudtrail_data_to_neptune true
          ⟨[⟨"arn-r2", "r2", "acct"⟩], [], [], [], [], []⟩
          [("arn-ghost", ["s3:Get"]), ("arn-r2", ["s3:Put"])] 3 7).graph
        r2 a2 = some e ∧ e.last_seen = 7) :=
  unknown_role_usage_skipped
    ⟨[⟨"arn-r2", "r2", "acct"⟩], [], [], [], [], []⟩
    [("arn-ghost", ["s3:Get"]), ("arn-r2", ["s3:Put"])] 3 7 "arn-ghost"
    (by decide)

/-! ## Error-path behaviour of the upsert engine -/

theorem processPolicy_err_of_malformed {p : PolicyRecord}
    (hdoc : p.document = .malformed) (g : Graph) (ra : String) :
    ∃ ge, processPolicy g ra p = .error ge := by
  unfold processPolicy
  rw [hdoc]
  exact ⟨_, rfl⟩

theorem processPolicies_err_of_malformed :
    ∀ (ps : List PolicyRecord) (g : Graph) (ra : String),
      (∃ p ∈ ps, p.document = .malformed) →
      ∃ ge, processPolicies g ra ps = .error ge := by
  intro ps
  induction ps with
  | nil =>
    intro g ra hex
    obtain ⟨p, hp, -⟩ := hex
    exact absurd hp (List.not_mem_nil p)
  | cons p ps ih =>
    intro g ra hex
    unfold processPolicies
    cases hstep : processPolicy g ra p with
    | error ge => exact ⟨ge, rfl⟩
    | ok ga =>
      obtain ⟨p1, hp1, hdoc⟩ := hex
      rcases List.mem_cons.mp hp1 with h3 | h3
      · subst h3
        obtain ⟨ge, hge⟩ := processPolicy_err_of_malformed hdoc g ra
        rw [hstep] at hge
        cases hge
      · obtain ⟨ge, hge⟩ := ih ga ra ⟨p1, h3, hdoc⟩
        exact ⟨ge, hge⟩

theorem processRoles_err_of_malformed :
    ∀ (L : List RoleRecord) (g : Graph) (n : Nat),
      (∃ r ∈ L, ∃ p ∈ r.policies, p.document = .malformed) →
      ∃ e, (processRoles g n L).result = .error e := by
  intro L
  induction L with
  | nil =>
    intro g n hex
    obtain ⟨r, hr, -⟩ := hex
    exact absurd hr (List.not_mem_nil r)
  | cons r rs ih =>
    intro g n hex
    cases hstep : processRole g r with
    | error ge =>
      obtain ⟨g1, e⟩ := ge
      refine ⟨e, ?_⟩
      show (match processRole g r with
        | .ok g2 => processRoles g2 (n + 1) rs
        | .error (g2, e2) =>
          (⟨g2, n + 1, .error e2⟩ : UpsertOutcome)).result = .error e
      rw [hstep]
    | ok ga =>
      obtain ⟨r1, hr1, p1, hp1, hdoc⟩ := hex
      rcases List.mem_cons.mp hr1 with h3 | h3
      · subst h3
        obtain ⟨ge, hge⟩ :=
          processPolicies_err_of_malformed r1.policies (upsertRoleNode g r1)
            r1.arn ⟨p1, hp1, hdoc⟩
        have hro : processRole g r1 = .error ge := hge
        rw [hstep] at hro
        cases hro
      · obtain ⟨e, he⟩ := ih ga (n + 1) ⟨r1, h3, p1, hp1, hdoc⟩
        refine ⟨e, ?_⟩
        show (match processRole g r with
          | .ok g2 => processRoles g2 (n + 1) rs
          | .error (g2, e2) =>
            (⟨g2, n + 1, .error e2⟩ : UpsertOutcome)).result = .error e
        rw [hstep]
        exact he

/-- C6 counterexample: a batch of two role records whose first policy
document is malformed.  The call raises (`AttributeError` propagates to
the caller) instead of returning normally, and the second record is never
processed — its role vertex is absent from the resulting graph.  The
offending item is not skipped and processing does not continue. -/
theorem malformed_document_aborts_counterexample :
    (save_iam_data_to_neptune true Graph.empty
      [⟨"arn-r1", "r1", "acct", [⟨"arn-p1", "pol1", "managed", .malformed⟩]⟩,
       ⟨"arn-r2", "r2", "acct",
         [⟨"arn-p2", "pol2", "managed", .valid []⟩]⟩]).result =
      .error "AttributeError" ∧
    ¬ roleKeyIn (save_iam_data_to_neptune true Graph.empty
      [⟨"arn-r1", "r1", "acct", [⟨"arn-p1", "pol1", "managed", .malformed⟩]⟩,
       ⟨"arn-r2", "r2", "acct",
         [⟨"arn-p2", "pol2", "managed", .valid []⟩]⟩]).graph "arn-r2" := by
  constructor
  · rfl
  · decide

/-- C6 amended: a malformed policy document anywhere in the batch makes
`save_iam_data_to_neptune` raise — the exception is re-raised to the
caller and the whole call aborts; the offending item is not skipped with
a warning and the remainder of the batch is not processed (writes
committed before the exception remain). -/
theorem malformed_document_raises (g : Graph) (L : List RoleRecord)
    (hex : ∃ r ∈ L, ∃ p ∈ r.policies, p.document = .malformed) :
    ∃ e, (save_iam_data_to_neptune true g L).result = .error e :=
  processRoles_err_of_malformed L g 0 hex

/-- Witness for the amended C6 on a concrete malformed batch. -/
theorem malformed_document_raises_witness :
    ∃ e, (save_iam_data_to_neptune true Graph.empty
      [⟨"arn-r1", "r1", "acct",
        [⟨"arn-p1", "pol1", "managed", .malformed⟩]⟩]).result = .error e :=
  malformed_document_raises Graph.empty
    [⟨"arn-r1", "r1", "acct", [⟨"arn-p1", "pol1", "managed", .malformed⟩]⟩]
    ⟨⟨"arn-r1", "r1", "acct", [⟨"arn-p1", "pol1", "managed", .malformed⟩]⟩,
      List.mem_singleton_self _,
      ⟨"arn-p1", "pol1", "managed", .malformed⟩,
      List.mem_singleton_self _, rfl⟩

/-- C7 counterexample: when the connection cannot be established
(`get_graph_traversal` returns `None`), both functions print and return
`None` — the very value a fully successful run returns (third conjunct) —
instead of surfacing an error to the invoker.  The failure is masked as a
normal return, distinguishable only in the logs. -/
theorem connection_failure_masked_counterexample :
    (save_iam_data_to_neptune false Graph.empty
      [⟨"arn-r1", "r1", "acct", []⟩]).result = .ok none ∧
    (save_cloudtrail_data_to_neptune false Graph.empty
      [("arn-r1", ["s3:Get"])] 0 0).result = .ok none ∧
    (save_iam_data_to_neptune true Graph.empty
      [⟨"arn-r1", "r1", "acct", []⟩]).result = .ok none :=
  ⟨rfl, rfl, rfl⟩

/-- C7 amended: on connection failure each function aborts the batch with
no partial result — the graph is untouched, no role is processed, no
warning is recorded — but the failure is not surfaced: the call returns
`None` normally, exactly as a successful call does, never an exception.
(Failures occurring after a connection is established are re-raised, as
`malformed_document_raises` shows; the connectivity case is the one the
claim gets wrong.) -/
theorem connection_failure_returns_normally (g : Graph)
    (L : List RoleRecord) (usage : List (String × List String)) (s t : Nat) :
    (save_iam_data_to_neptune false g L).graph = g ∧
    (save_iam_data_to_neptune false g L).rolesProcessed = 0 ∧
    (save_iam_data_to_neptune false g L).result = .ok none ∧
    (save_cloudtrail_data_to_neptune false g usage s t).graph = g ∧
    (save_cloudtrail_data_to_neptune false g usage s t).warnings = [] ∧
    (save_cloudtrail_data_to_neptune false g usage s t).result = .ok none :=
  ⟨rfl, rfl, rfl, rfl, rfl, rfl⟩

/-! ## Well-formed batches run to completion -/

theorem processStatement_isOk {g : Graph} {pa : String} {st : Stmt}
    (h : st.effect = some "Allow" → st.action ≠ none) :
    ∃ g1, processStatement g pa st = .ok g1 := by
  unfold processStatement
  by_cases he : st.effect = some "Allow"
  · rw [if_pos he]
    cases haf : st.action with
    | none => exact absurd haf (h he)
    | some af => exact ⟨_, rfl⟩
  · rw [if_neg he]
    exact ⟨_, rfl⟩

theorem processStatements_isOk {pa : String} :
    ∀ (sts : List Stmt) (g : Graph),
      (∀ st ∈ sts, st.effect = some "Allow" → st.action ≠ none) →
      ∃ g1, processStatements g pa sts = .ok g1 := by
  intro sts
  induction sts with
  | nil => intro g h; exact ⟨g, rfl⟩
  | cons st sts ih =>
    intro g h
    obtain ⟨ga, hga⟩ := @processStatement_isOk g pa st
      (h st (List.mem_cons_self st sts))
    obtain ⟨g1, hg1⟩ := ih ga (fun st2 h2 => h st2 (List.mem_cons_of_mem st h2))
    refine ⟨g1, ?_⟩
    unfold processStatements
    rw [hga]
    exact hg1

theorem processPolicy_isOk {ra : String} {p : PolicyRecord} (g : Graph)
    (h : ∃ stmts, p.document = .valid stmts ∧
      ∀ st ∈ stmts, st.effect = some "Allow" → st.action ≠ none) :
    ∃ g1, processPolicy g ra p = .ok g1 := by
  obtain ⟨stmts, hdoc, hall⟩ := h
  unfold processPolicy
  rw [hdoc]
  exact processStatements_isOk stmts _ hall

theorem processPolicies_isOk {ra : String} :
    ∀ (ps : List PolicyRecord) (g : Graph),
      (∀ p ∈ ps, ∃ stmts, p.document = .valid stmts ∧
        ∀ st ∈ stmts, st.effect = some "Allow" → st.action ≠ none) →
      ∃ g1, processPolicies g ra ps = .ok g1 := by
  intro ps
  induction ps with
  | nil => intro g h; exact ⟨g, rfl⟩
  | cons p ps ih =>
    intro g h
    obtain ⟨ga, hga⟩ := @processPolicy_isOk ra p g
      (h p (List.mem_cons_self p ps))
    obtain ⟨g1, hg1⟩ := ih ga (fun p2 h2 => h p2 (List.mem_cons_of_mem p h2))
    refine ⟨g1, ?_⟩
    unfold processPolicies
    rw [hga]
    exact hg1

/-- Each policy document in the batch is a mapping and each of its Allow
statements carries an `Action` field, so no exception can be raised. -/
def WellFormedBatch (L : List RoleRecord) : Prop :=
  ∀ r ∈ L, ∀ p ∈ r.policies, ∃ stmts, p.document = .valid stmts ∧
    ∀ st ∈ stmts, st.effect = some "Allow" → st.action ≠ none

theorem processRoles_ok_of_wf :
    ∀ (L : List RoleRecord) (g : Graph) (n : Nat), WellFormedBatch L →
      (processRoles g n L).rolesProcessed = n + L.length ∧
      (processRoles g n L).result = .ok none := by
  intro L
  induction L with
  | nil => intro g n h; exact ⟨rfl, rfl⟩
  | cons r rs ih =>
    intro g n h
    obtain ⟨ga, hga⟩ := @processPolicies_isOk r.arn r.policies
      (upsertRoleNode g r) (h r (List.mem_cons_self r rs))
    have hrole : processRole g r = .ok ga := hga
    have hfirst : processRoles g n (r :: rs) = processRoles ga (n + 1) rs := by
      show (match processRole g r with
        | .ok g1 => processRoles g1 (n + 1) rs
        | .error (g1, e) => ⟨g1, n + 1, .error e⟩) = processRoles ga (n + 1) rs
      rw [hrole]
    rw [hfirst]
    obtain ⟨hc, hr2⟩ := ih ga (n + 1) (fun r2 h2 => h r2 (List.mem_cons_of_mem r h2))
    refine ⟨?_, hr2⟩
    rw [hc, List.length_cons]
    omega

/-- C8 counterexample: on a batch of one well-formed role record the call
does not return the count of roles processed — it returns `None` (the
function has no `return` of the counter; it only logs it). -/
theorem upsert_return_value_counterexample :
    (save_iam_data_to_neptune true Graph.empty
      [⟨"arn-r1", "r1", "acct", []⟩]).result ≠
      .ok (some ([(⟨"arn-r1", "r1", "acct", []⟩ : RoleRecord)].length)) ∧
    (save_iam_data_to_neptune true Graph.empty
      [⟨"arn-r1", "r1", "acct", []⟩]).result = .ok none := by
  constructor
  · decide
  · rfl

/-- C8 amended: `save_iam_data_to_neptune` always returns `None`; on a
well-formed batch it runs to completion, and its internal
`roles_processed` counter — reported only in the success log message —
equals the number of role records in the batch. -/
theorem upsert_counts_roles_internally (g : Graph) (L : List RoleRecord)
    (h : WellFormedBatch L) :
    (save_iam_data_to_neptune true g L).rolesProcessed = L.length ∧
    (save_iam_data_to_neptune true g L).result = .ok none := by
  have hok := processRoles_ok_of_wf L g 0 h
  exact ⟨by rw [show (save_iam_data_to_neptune true g L).rolesProcessed =
      (processRoles g 0 L).rolesProcessed from rfl, hok.1, Nat.zero_add], hok.2⟩

/-- Witness for the amended C8 on a concrete well-formed two-record batch. -/
theorem upsert_counts_roles_internally_witness :
    (save_iam_data_to_neptune true Graph.empty
      [⟨"arn-r1", "r1", "acct",
        [⟨"arn-p1", "pol1", "managed",
          .valid [⟨some "Allow", some (.one "s3:Get")⟩]⟩]⟩,
       ⟨"arn-r2", "r2", "acct", []⟩]).rolesProcessed =
      ([⟨"arn-r1", "r1", "acct",
        [⟨"arn-p1", "pol1", "managed",
          .valid [⟨some "Allow", some (.one "s3:Get")⟩]⟩]⟩,
       ⟨"arn-r2", "r2", "acct", []⟩] : List RoleRecord).length ∧
    (save_iam_data_to_neptune true Graph.empty
      [⟨"arn-r1", "r1", "acct",
        [⟨"arn-p1", "pol1", "managed",
          .valid [⟨some "Allow", some (.one "s3:Get")⟩]⟩]⟩,
       ⟨"arn-r2", "r2", "acct", []⟩]).result = .ok none :=
  upsert_counts_roles_internally Graph.empty _
    (by
      intro r hr p hp
      rcases List.mem_cons.mp hr with h1 | h1
      · subst h1
        have h2 := List.mem_singleton.mp hp
        subst h2
        exact ⟨[⟨some "Allow", some (.one "s3:Get")⟩], rfl, by decide⟩
      · have h2 := List.mem_singleton.mp h1
        subst h2
        exact absurd hp (List.not_mem_nil p))

end IEI
